import Mathlib

/-!
# lua_serde: a shallow embedding of `src/src/lua_serde.c`

The development models the two core routines `serialize_internal` and
`deserialize_internal` together with the entry point `deserialize_lua`.

Modelling conventions.

* Memory is a map from addresses to bytes.  A byte is a natural number that is
  reduced modulo `2 ^ 8` whenever it is stored or loaded (`uint8_t`).
* A pointer is an address, a natural number.  The decoder is embedded twice.
  In `deserialize_fuel` a pointer sum such as `pos + len` is a sum of natural
  numbers: this describes the calls in which no pointer sum reaches `2 ^ 64`,
  as is the case for every length field that the encoder has written.  In
  `deserialize_fuel64` every pointer sum is taken modulo `2 ^ 64`, as the
  compiled code computes it; it is the embedding for length and count fields
  that the input chooses freely.  The encoder adds only sizes of objects that
  exist in memory to its cursor.
* `size_t` and `double` are 8 bytes wide and stored little-endian.  A `double`
  is represented by its 64-bit pattern, so that `memcpy` of a number is the
  transfer of these 64 bits.  Lua numbers are doubles (`lua_Number`).
* The Lua state is the list of values on the Lua stack, top of stack first.
  A table is the list of its entries in the order in which `lua_next` visits
  them.  The Lua API calls used by the code are modelled after the Lua
  reference manual: `lua_settable` replaces the value of an existing key,
  removes the key when the value is nil, raises an error on a nil or NaN key or
  when the indexed value is not a table.
* `lua_isnumber` accepts a string that Lua can convert to a number.  The
  conversion itself (`lua_tonumber` on a string) is a parameter `cvt` of the
  encoder: all results hold for every conversion function.
* Values are finite trees: a table that contains itself is outside the model,
  and so are the capacity of the Lua stack and the errors of the allocator.
  The one exception is `lua_pushlstring` in `deserialize_fuel64`, where the
  input chooses the size of the string: whether the host creates a string of
  `len` bytes or raises a memory error is the parameter `alloc`.
-/

namespace LuaSerde

/-! ## Memory -/

/-- Byte-addressed memory. -/
abbrev Mem := Nat → Nat

/-- Load of one `uint8_t`. -/
def Mem.read (m : Mem) (a : Nat) : Nat := m a % 256

/-- Store of one `uint8_t`. -/
def Mem.write (m : Mem) (a b : Nat) : Mem := fun x => if x = a then b % 256 else m x

/-- The call `memcpy(dst, src, n)` where `src` holds the bytes `bs`. -/
def memcpy : Mem → Nat → List Nat → Mem
  | m, _, [] => m
  | m, dst, b :: bs => memcpy (m.write dst b) (dst + 1) bs

/-- The `n` bytes stored at `src`, `src + 1`, ... -/
def readBytes (m : Mem) : Nat → Nat → List Nat
  | _, 0 => []
  | src, n + 1 => m.read src :: readBytes m (src + 1) n

/-- The object representation of an 8-byte little-endian word (`size_t`, or the
bit pattern of a `double`). -/
def le64 (n : Nat) : List Nat :=
  [n % 256, n / 256 % 256, n / 65536 % 256, n / 16777216 % 256,
   n / 4294967296 % 256, n / 1099511627776 % 256, n / 281474976710656 % 256,
   n / 72057594037927936 % 256]

/-- The value of a little-endian byte sequence. -/
def fromLE : List Nat → Nat
  | [] => 0
  | b :: bs => b + 256 * fromLE bs

/-- The 8-byte word stored at `src` (`memcpy(&x, src, 8)`). -/
def read64 (m : Mem) (src : Nat) : Nat := fromLE (readBytes m src 8)

/-- A memory whose first bytes are `bs` (an input string placed at address 0). -/
def memOf (bs : List Nat) : Mem := fun a => bs.getD a 0

/-! ## Lua values -/

/-- Lua values.  `number` carries the 64-bit pattern of a double, `string` the
bytes of the string, `table` the entries in `lua_next` order, and `other` stands
for the kinds the format has no tag for (function, userdata, thread). -/
inductive LuaValue where
  | nil
  | boolean (b : Bool)
  | number (bits : Nat)
  | string (bytes : List Nat)
  | table (entries : List (LuaValue × LuaValue))
  | other

/-- The Lua stack, top of stack first. -/
abbrev Stack := List LuaValue

mutual
/-- Structural equality test on values. -/
def LuaValue.beq : LuaValue → LuaValue → Bool
  | .nil, .nil => true
  | .boolean a, .boolean b => a == b
  | .number a, .number b => a == b
  | .string a, .string b => a == b
  | .table a, .table b => LuaValue.beqEntries a b
  | .other, .other => true
  | _, _ => false
/-- Structural equality test on entry lists. -/
def LuaValue.beqEntries :
    List (LuaValue × LuaValue) → List (LuaValue × LuaValue) → Bool
  | [], [] => true
  | (k, v) :: r, (k2, v2) :: r2 =>
      LuaValue.beq k k2 && LuaValue.beq v v2 && LuaValue.beqEntries r r2
  | _, _ => false
end

mutual
theorem LuaValue.beq_iff : ∀ (a b : LuaValue), LuaValue.beq a b = true ↔ a = b
  | .nil, b => by cases b <;> simp [LuaValue.beq]
  | .boolean x, b => by cases b <;> simp [LuaValue.beq]
  | .number x, b => by cases b <;> simp [LuaValue.beq]
  | .string x, b => by cases b <;> simp [LuaValue.beq]
  | .other, b => by cases b <;> simp [LuaValue.beq]
  | .table x, b => by
      cases b <;> simp [LuaValue.beq]
      exact LuaValue.beqEntries_iff x _
theorem LuaValue.beqEntries_iff :
    ∀ (a b : List (LuaValue × LuaValue)), LuaValue.beqEntries a b = true ↔ a = b
  | [], b => by cases b <;> simp [LuaValue.beqEntries]
  | (k, v) :: r, b => by
      cases b with
      | nil => simp [LuaValue.beqEntries]
      | cons hd tl =>
        obtain ⟨k2, v2⟩ := hd
        simp [LuaValue.beqEntries, LuaValue.beq_iff k k2, LuaValue.beq_iff v v2,
          LuaValue.beqEntries_iff r tl, and_assoc]
end

instance : DecidableEq LuaValue := fun a b =>
  decidable_of_iff _ (LuaValue.beq_iff a b)

/-! ## The part of the Lua API used by the code -/

/-- The host conversion of a string to a number (`lua_tonumber` on a string):
`none` when the string is not a numeral, else the bit pattern of the double. -/
abbrev Str2Number := List Nat → Option Nat

/-- The call `lua_isnumber`: true for a number and for a string convertible to
a number. -/
def lua_isnumber (cvt : Str2Number) : LuaValue → Bool
  | .number _ => true
  | .string s => (cvt s).isSome
  | _ => false

/-- The call `lua_tonumber`: the number, the converted string, or 0. -/
def lua_tonumber (cvt : Str2Number) : LuaValue → Nat
  | .number d => d
  | .string s => (cvt s).getD 0
  | _ => 0

/-- The call `lua_isstring`: true for a string and for a number. -/
def lua_isstring : LuaValue → Bool
  | .string _ => true
  | .number _ => true
  | _ => false

/-- The call `lua_tolstring` on a string.  The code calls it on strings only:
in the key branch a number has already been taken by `lua_isnumber`. -/
def lua_tolstring : LuaValue → List Nat
  | .string s => s
  | _ => []

/-- Whether a 64-bit pattern is a NaN: exponent all ones, mantissa non-zero. -/
def isNaN (bits : Nat) : Bool :=
  bits / 4503599627370496 % 2048 == 2047 && bits % 4503599627370496 != 0

/-- Equality of two doubles given by their bit patterns: equal patterns that are
not NaN, or two zeros of either sign. -/
def numEq (a b : Nat) : Bool :=
  !isNaN a && !isNaN b &&
    (a == b || (a % 9223372036854775808 == 0 && b % 9223372036854775808 == 0))

/-- Raw equality of table keys.  Tables and the other reference kinds are
compared by identity in Lua; the decoder only ever creates number and string
keys, and a freshly created table is a new key, so they are never equal here. -/
def rawEq : LuaValue → LuaValue → Bool
  | .number a, .number b => numEq a b
  | .string a, .string b => a == b
  | .boolean a, .boolean b => a == b
  | _, _ => false

/-- The assignment `t[k] = v` on the entry list of a table: nil removes the
key, an existing key keeps its place and takes the new value, a new key is
added. -/
def tableSet (es : List (LuaValue × LuaValue)) (k v : LuaValue) :
    List (LuaValue × LuaValue) :=
  if v = .nil then es.filter (fun e => !rawEq e.1 k)
  else if es.any (fun e => rawEq e.1 k) then
    es.map (fun e => if rawEq e.1 k then (e.1, v) else e)
  else es ++ [(k, v)]

/-- The read `t[k]`: the value of the entry with key `k`, nil when absent. -/
def tableGet : List (LuaValue × LuaValue) → LuaValue → LuaValue
  | [], _ => .nil
  | (k1, v1) :: rest, k => if rawEq k1 k then v1 else tableGet rest k

/-- The result of a Lua API call that may not return. -/
inductive ApiResult where
  | ok (st : Stack)
  | raised
  | fault
  deriving DecidableEq

/-- The call `lua_settable(L, -3)`: pops the value and the key and assigns into
the table below them.  A nil or NaN key, or a value at index -3 that is not a
table, raises a Lua error.  With fewer than three values the index -3 addresses
a slot that does not belong to the values pushed by the decoder: `fault`. -/
def lua_settable : Stack → ApiResult
  | v :: k :: .table es :: rest =>
      match k with
      | .nil => .raised
      | .number d => if isNaN d then .raised else .ok (.table (tableSet es k v) :: rest)
      | _ => .ok (.table (tableSet es k v) :: rest)
  | _ :: _ :: _ :: _ => .raised
  | _ => .fault

/-! ## `serialize_internal` -/

/-- What `serialize_internal` leaves behind: the return code, the caller's
cursor `*buffer` and the memory. -/
structure SerResult where
  rc : Int
  buffer : Nat
  mem : Mem

/-- What the `lua_next` loop of the table case leaves behind: the return code
(non-zero when the loop returned from the function), the local `pos`, the
memory and the local `len`. -/
structure LoopResult where
  rc : Int
  pos : Nat
  mem : Mem
  len : Nat

mutual
/-- The function `serialize_internal` (lines 20-134) on the value at the top of
the stack. -/
def serialize_internal (cvt : Str2Number) :
    LuaValue → Mem → Nat → Nat → SerResult
  | .nil, mem, buffer, end_ =>
      if buffer + 1 > end_ then ⟨-1, buffer, mem⟩
      else ⟨0, buffer + 1, mem.write buffer 0⟩
  | .boolean b, mem, buffer, end_ =>
      if buffer + 2 * 1 > end_ then ⟨-1, buffer, mem⟩
      else ⟨0, buffer + 2, (mem.write buffer 1).write (buffer + 1) (if b then 1 else 0)⟩
  | .number d, mem, buffer, end_ =>
      if buffer + 1 + 8 > end_ then ⟨-1, buffer, mem⟩
      else ⟨0, buffer + 1 + 8, memcpy (mem.write buffer 2) (buffer + 1) (le64 d)⟩
  | .string s, mem, buffer, end_ =>
      if buffer + 1 + 8 + s.length > end_ then ⟨-1, buffer, mem⟩
      else ⟨0, buffer + 1 + 8 + s.length,
        memcpy (memcpy (mem.write buffer 3) (buffer + 1) (le64 s.length)) (buffer + 1 + 8) s⟩
  | .table es, mem, buffer, end_ =>
      if buffer + 1 > end_ then ⟨-1, buffer, mem⟩
      else
        let r := serialize_entries cvt es (mem.write buffer 4) (buffer + 1 + 8) end_ 0
        if r.rc ≠ 0 then ⟨r.rc, buffer, r.mem⟩
        else ⟨0, r.pos, memcpy r.mem (buffer + 1) (le64 r.len)⟩
  | .other, mem, buffer, _ => ⟨-9, buffer, mem⟩
/-- The loop `while (lua_next(L, -2) != 0)` of the table case (lines 87-121)
over the entries that `lua_next` still has to deliver. -/
def serialize_entries (cvt : Str2Number) :
    List (LuaValue × LuaValue) → Mem → Nat → Nat → Nat → LoopResult
  | [], mem, pos, _, len => ⟨0, pos, mem, len⟩
  | (k, v) :: rest, mem, pos, end_, len =>
      if lua_isnumber cvt k then
        if pos + 1 + 8 > end_ then ⟨-1, pos, mem, len + 1⟩
        else
          let r := serialize_internal cvt v
            (memcpy (mem.write pos 2) (pos + 1) (le64 (lua_tonumber cvt k))) (pos + 1 + 8) end_
          if r.rc ≠ 0 then ⟨r.rc, pos + 1 + 8, r.mem, len + 1⟩
          else serialize_entries cvt rest r.mem r.buffer end_ (len + 1)
      else if lua_isstring k then
        if pos + 1 + 8 + (lua_tolstring k).length > end_ then ⟨-1, pos, mem, len + 1⟩
        else
          let r := serialize_internal cvt v
            (memcpy (memcpy (mem.write pos 3) (pos + 1) (le64 (lua_tolstring k).length))
              (pos + 1 + 8) (lua_tolstring k))
            (pos + 1 + 8 + (lua_tolstring k).length) end_
          if r.rc ≠ 0 then ⟨r.rc, pos + 1 + 8 + (lua_tolstring k).length, r.mem, len + 1⟩
          else serialize_entries cvt rest r.mem r.buffer end_ (len + 1)
      else ⟨-9, pos, mem, len + 1⟩
end

/-! ## `deserialize_internal` -/

/-- How a call of `deserialize_internal` ends: it returns `rc` with the
caller's cursor `*buffer` and the Lua stack, or a Lua API call raises an error
(`raised`), or `lua_settable` addresses a stack slot below the values pushed by
the call (`fault`; what happens then depends on the caller's stack). -/
inductive Outcome where
  | ret (rc : Int) (buffer : Nat) (stack : Stack)
  | raised
  | fault
  deriving DecidableEq

/-- The key of a table entry read at `pos` (lines 204-231): the error code of
the `return`, or the cursor behind the key and the key pushed. -/
def read_key (mem : Mem) (pos end_ : Nat) : Except Int (Nat × LuaValue) :=
  let keytype := mem.read pos
  let pos := pos + 1
  if keytype = 2 then
    if pos + 8 > end_ then .error (-1)
    else .ok (pos + 8, .number (read64 mem pos))
  else if keytype = 3 then
    if pos + 8 > end_ then .error (-1)
    else
      let keylen := read64 mem pos
      let pos := pos + 8
      if pos + keylen > end_ then .error (-1)
      else .ok (pos + keylen, .string (readBytes mem pos keylen))
  else .error (-9)

mutual
/-- The function `deserialize_internal` (lines 136-248) with a bound on the
number of nested calls and loop iterations; `none` when the bound is reached. -/
def deserialize_fuel : Nat → Mem → Nat → Nat → Stack → Option Outcome
  | 0, _, _, _, _ => none
  | fuel + 1, mem, buffer, end_, st =>
      if buffer + 1 > end_ then some (.ret (-1) buffer st)
      else
        let type := mem.read buffer
        let pos := buffer + 1
        if type = 0 then some (.ret 0 pos (.nil :: st))
        else if type = 1 then
          if pos + 1 > end_ then some (.ret (-1) buffer st)
          else some (.ret 0 (pos + 1) (.boolean (mem.read pos != 0) :: st))
        else if type = 2 then
          if pos + 8 > end_ then some (.ret (-1) buffer st)
          else some (.ret 0 (pos + 8) (.number (read64 mem pos) :: st))
        else if type = 3 then
          if pos + 8 > end_ then some (.ret (-1) buffer st)
          else
            let len := read64 mem pos
            let pos := pos + 8
            if pos + len > end_ then some (.ret (-1) buffer st)
            else some (.ret 0 (pos + len) (.string (readBytes mem pos len) :: st))
        else if type = 4 then
          if pos + 8 > end_ then some (.ret (-1) buffer st)
          else
            let len := read64 mem pos
            let pos := pos + 8
            if pos + len > end_ then some (.ret (-1) buffer st)
            else table_loop fuel mem buffer len 0 pos end_ (.table [] :: st)
        else some (.ret (-9) buffer st)
termination_by structural fuel => fuel
/-- The loop `while (cnt < len && pos < end)` of the table case (lines
200-238) and the end of the function behind it.  `buffer` is the caller's
cursor, which a `return` inside the loop leaves untouched. -/
def table_loop : Nat → Mem → Nat → Nat → Nat → Nat → Nat → Stack → Option Outcome
  | 0, _, _, _, _, _, _, _ => none
  | fuel + 1, mem, buffer, len, cnt, pos, end_, st =>
      if cnt < len ∧ pos < end_ then
        match read_key mem pos end_ with
        | .error rc => some (.ret rc buffer st)
        | .ok (pos1, key) =>
            -- line 234: the return code of the nested call is not looked at
            match deserialize_fuel fuel mem pos1 end_ (key :: st) with
            | none => none
            | some (.ret _ pos2 st2) =>
                match lua_settable st2 with
                | .ok st3 => table_loop fuel mem buffer len (cnt + 1) pos2 end_ st3
                | .raised => some .raised
                | .fault => some .fault
            | some .raised => some .raised
            | some .fault => some .fault
      else some (.ret 0 pos st)
termination_by structural fuel => fuel
end

/-- The function `deserialize_internal` called with the cursor `buffer` and the
bound `end_`, on a stack to which the call has not pushed anything yet.  The
bound on the recursion is never reached (`deserialize_fuel_total`). -/
def deserialize_internal (mem : Mem) (buffer end_ : Nat) : Outcome :=
  (deserialize_fuel (end_ - buffer + 1) mem buffer end_ []).getD .fault

/-- What `deserialize_lua` hands back to Lua: the decoded value, or one of its
two error messages, or the error raised by the Lua API inside the decoder. -/
inductive LuaReturn where
  | value (v : LuaValue)
  | exceeded_buffer_size
  | invalid_type_at_byte (offset : Nat)
  | api_error
  deriving DecidableEq

/-- The function `deserialize_lua` (lines 272-297) on the input string
`input`, which is placed at address 0: `start = 0`, `end = len`.  The argument
is a string, so the check of lines 275-278 passes.  The stack slot below the
decoder's values holds the input string, so that a `fault` of the decoder is an
error raised by `lua_settable`. -/
def deserialize_lua (input : List Nat) : LuaReturn :=
  let start := 0
  match deserialize_internal (memOf input) start (start + input.length) with
  | .ret r pos st =>
      if r ≠ 0 then
        if r = -1 then .exceeded_buffer_size
        else .invalid_type_at_byte (pos - start)
      else .value (st.headD .nil)
  | .raised => .api_error
  | .fault => .api_error


/-! ## The bytes the encoder emits -/

/-- The key unit that the key loop of `serialize_internal` emits for a table
entry (lines 92-113): a Number unit, tag 2 and 8 raw bytes, when the loop takes
its `lua_isnumber` branch (a number, or a string that Lua converts to a
number), a Text unit, tag 3, 8-byte length and the raw bytes, when it takes its
`lua_isstring` branch (any other string).  For the key unit of the format see
`specKey`. -/
def key (cvt : Str2Number) (k : LuaValue) : List Nat :=
  if lua_isnumber cvt k then 2 :: le64 (lua_tonumber cvt k)
  else if lua_isstring k then 3 :: (le64 (lua_tolstring k).length ++ lua_tolstring k)
  else []

mutual
/-- The bytes that `serialize_internal` emits for a value: tag codes Absence 0,
Boolean 1, Number 2, Text 3, Table 4, 8-byte little-endian length and count
fields, and the key units of `key`.  For the layout of the format see
`specSer`. -/
def ser (cvt : Str2Number) : LuaValue → List Nat
  | .nil => [0]
  | .boolean b => [1, if b then 1 else 0]
  | .number d => 2 :: le64 d
  | .string s => 3 :: (le64 s.length ++ s)
  | .table es => 4 :: (le64 es.length ++ serEntries cvt es)
  | .other => []
/-- The entries of a table in iteration order, each a key unit followed by the
value unit. -/
def serEntries (cvt : Str2Number) : List (LuaValue × LuaValue) → List Nat
  | [] => []
  | (k, v) :: rest => key cvt k ++ (ser cvt v ++ serEntries cvt rest)
end

/-- The size of the key unit that the key loop emits: 9 bytes in its
`lua_isnumber` branch, 9 + N bytes for a string of N bytes in its
`lua_isstring` branch.  For the size of the key unit of the format see
`specKeySize`. -/
def keySize (cvt : Str2Number) (k : LuaValue) : Nat :=
  if lua_isnumber cvt k then 9 else 9 + (lua_tolstring k).length

mutual
/-- The number of bytes that `serialize_internal` emits for a value: 1 for
Absence, 2 for Boolean, 9 for Number, 9 + N for a Text of N bytes, 9 plus the
sizes of the emitted key units and value units for a Table.  For the encoded
size of the format see `specSize`. -/
def encodedSize (cvt : Str2Number) : LuaValue → Nat
  | .nil => 1
  | .boolean _ => 2
  | .number _ => 9
  | .string s => 9 + s.length
  | .table es => 9 + entriesSize cvt es
  | .other => 0
/-- The sizes of all key units and value units of the entries. -/
def entriesSize (cvt : Str2Number) : List (LuaValue × LuaValue) → Nat
  | [] => 0
  | (k, v) :: rest => keySize cvt k + (encodedSize cvt v + entriesSize cvt rest)
end

mutual
/-- The values the format can represent: one of the five kinds, every table
key a number or a string. -/
def Encodable : LuaValue → Bool
  | .nil => true
  | .boolean _ => true
  | .number _ => true
  | .string _ => true
  | .table es => EncodableEntries es
  | .other => false
/-- Every key is a number or a string and every value is encodable. -/
def EncodableEntries : List (LuaValue × LuaValue) → Bool
  | [] => true
  | (k, v) :: rest => lua_isstring k && Encodable v && EncodableEntries rest
end

/-! ## Auxiliary notions for the statements -/

/-- The bytes `bs` are stored at `p`, `p + 1`, ... -/
def At (m : Mem) : Nat → List Nat → Prop
  | _, [] => True
  | p, b :: bs => m.read p = b ∧ At m (p + 1) bs

/-- Whether the bytes `bs` are stored at `p` can be computed. -/
instance At.decidable (m : Mem) : ∀ (p : Nat) (bs : List Nat), Decidable (At m p bs)
  | _, [] => isTrue True.intro
  | p, b :: bs =>
      match decEq (m.read p) b, At.decidable m (p + 1) bs with
      | isTrue h1, isTrue h2 => isTrue ⟨h1, h2⟩
      | isFalse h1, _ => isFalse (fun h => h1 h.1)
      | _, isFalse h2 => isFalse (fun h => h2 h.2)

/-- The cursor an outcome leaves behind is not before `b`. -/
def Outcome.cursorGE (b : Nat) : Outcome → Prop
  | .ret _ p _ => b ≤ p
  | _ => True

/-- The conversion under which no string is a numeral: with it `key` and `ser`
keep the kind of every key. -/
def noCvt : Str2Number := fun _ => none

/-- A key that an encoded table entry can carry and a Lua table can hold: a
number that is not NaN, or a string. -/
def WireKey : LuaValue → Bool
  | .number d => decide (d < 18446744073709551616) && !isNaN d
  | .string s => decide (s.length < 18446744073709551616) && s.all (fun b => decide (b < 256))
  | _ => false

mutual
/-- The values whose reference layout is a well-formed encoding: numbers are
64-bit patterns, strings are byte strings whose length fits a `size_t`, the
entry count of a table fits a `size_t` and its keys are `WireKey`s. -/
def Wire : LuaValue → Bool
  | .nil => true
  | .boolean _ => true
  | .number d => decide (d < 18446744073709551616)
  | .string s => decide (s.length < 18446744073709551616) && s.all (fun b => decide (b < 256))
  | .table es => decide (es.length < 18446744073709551616) && WireEntries es
  | .other => false
/-- Every entry has a `WireKey` and a `Wire` value. -/
def WireEntries : List (LuaValue × LuaValue) → Bool
  | [] => true
  | (k, v) :: rest => WireKey k && Wire v && WireEntries rest
end

mutual
/-- The value the decoder builds from the reference layout of `v`: every
table is assembled entry by entry with `lua_settable`. -/
def rebuild : LuaValue → LuaValue
  | .table es => .table (rebuildEntries es [])
  | v => v
/-- The table the decoder has assembled after the entries `es`, starting from
the entries `acc`. -/
def rebuildEntries : List (LuaValue × LuaValue) → List (LuaValue × LuaValue) →
    List (LuaValue × LuaValue)
  | [], acc => acc
  | (k, v) :: rest, acc => rebuildEntries rest (tableSet acc k (rebuild v))
end

/-- A string key that `lua_isnumber` accepts, so that the key loop takes its
number branch for it. -/
def coerced (cvt : Str2Number) : LuaValue → Bool
  | .string s => (cvt s).isSome
  | _ => false

mutual
/-- No table at any depth has a string key that `lua_isnumber` accepts. -/
def Plain (cvt : Str2Number) : LuaValue → Bool
  | .table es => PlainEntries cvt es
  | _ => true
/-- No entry has a string key that `lua_isnumber` accepts, at any depth. -/
def PlainEntries (cvt : Str2Number) : List (LuaValue × LuaValue) → Bool
  | [] => true
  | (k, v) :: rest => !coerced cvt k && Plain cvt v && PlainEntries cvt rest
end

/-- Whether a value is nil. -/
def LuaValue.isNil : LuaValue → Bool
  | .nil => true
  | _ => false

mutual
/-- The invariants of the tables Lua hands to the encoder: no entry has the
value nil and no two entries of a table have equal keys, at any depth. -/
def LuaTable : LuaValue → Bool
  | .table es => LuaTableEntries es
  | _ => true
/-- The invariants of Lua tables on an entry list. -/
def LuaTableEntries : List (LuaValue × LuaValue) → Bool
  | [] => true
  | (k, v) :: rest =>
      !v.isNil && rest.all (fun e => !rawEq k e.1) && LuaTable v && LuaTableEntries rest
end

/-- A key of a kind the format has no key unit for: a boolean or a table. -/
def badKey : LuaValue → Bool
  | .boolean _ => true
  | .table _ => true
  | _ => false

mutual
/-- The value is a table that contains, at some nesting depth, an entry whose
key is a boolean or a table. -/
def hasBadKey : LuaValue → Bool
  | .table es => hasBadKeyEntries es
  | _ => false
/-- Some entry has a boolean or table key, or a value that contains one. -/
def hasBadKeyEntries : List (LuaValue × LuaValue) → Bool
  | [] => false
  | (k, v) :: rest => badKey k || hasBadKey v || hasBadKeyEntries rest
end

mutual
/-- The number of bytes the encoder emits for `v`, reserved count fields
included, before it meets the first key or value that the format cannot
represent; the whole encoded size when there is none. -/
def emittedBefore (cvt : Str2Number) : LuaValue → Nat
  | .nil => 1
  | .boolean _ => 2
  | .number _ => 9
  | .string s => 9 + s.length
  | .table es => 9 + emittedBeforeEntries cvt es
  | .other => 0
/-- The bytes emitted for the entries before the first key or value that the
format cannot represent. -/
def emittedBeforeEntries (cvt : Str2Number) : List (LuaValue × LuaValue) → Nat
  | [] => 0
  | (k, v) :: rest =>
      if lua_isstring k then
        keySize cvt k + (emittedBefore cvt v +
          (if Encodable v then emittedBeforeEntries cvt rest else 0))
      else 0
end

/-- The value of the last entry of `es`, in buffer order, whose key equals
`k`; `none` when no entry has that key. -/
def lastValue : List (LuaValue × LuaValue) → LuaValue → Option LuaValue
  | [], _ => none
  | (k1, v1) :: rest, k =>
      match lastValue rest k with
      | some x => some x
      | none => if rawEq k1 k then some v1 else none

/-- The number of entries of a table whose key equals `k`. -/
def keyCount (es : List (LuaValue × LuaValue)) (k : LuaValue) : Nat :=
  (es.filter (fun e => rawEq e.1 k)).length

/-- What a return of the decoder satisfies: a return code among 0, -1 and -9;
on a non-zero code the cursor `b` of the caller is untouched; on code 0 the
cursor lies between `lo` and `hi`. -/
def ReturnOk (b lo hi : Nat) : Outcome → Prop
  | .ret rc p _ => (rc = 0 ∨ rc = -1 ∨ rc = -9) ∧ (rc ≠ 0 → p = b) ∧ (rc = 0 → lo ≤ p ∧ p ≤ hi)
  | _ => True

/-- The key the encoder in effect emits for `k`: a string that `lua_isnumber`
accepts is emitted as the number that `lua_tonumber` yields. -/
def coerceKey (cvt : Str2Number) : LuaValue → LuaValue
  | .string s =>
      match cvt s with
      | some d => .number d
      | none => .string s
  | k => k

mutual
/-- The value whose kind-preserving layout the encoder emits for `v`: every
key replaced by `coerceKey`, at any depth. -/
def coerceKeys (cvt : Str2Number) : LuaValue → LuaValue
  | .table es => .table (coerceEntries cvt es)
  | .nil => .nil
  | .boolean b => .boolean b
  | .number d => .number d
  | .string s => .string s
  | .other => .other
/-- The entries with every key replaced by `coerceKey`, at any depth. -/
def coerceEntries (cvt : Str2Number) : List (LuaValue × LuaValue) → List (LuaValue × LuaValue)
  | [] => []
  | (k, v) :: rest => (coerceKey cvt k, coerceKeys cvt v) :: coerceEntries cvt rest
end

/-- The host conversion yields 64-bit patterns of numbers that are not NaN
(Lua rejects the numerals "nan" and "inf"). -/
def CvtOk (cvt : Str2Number) : Prop :=
  ∀ s d, cvt s = some d → d < 18446744073709551616 ∧ isNaN d = false

/-- The values that are not tables: nil, booleans, numbers and strings. -/
def isScalar : LuaValue → Bool
  | .nil => true
  | .boolean _ => true
  | .number _ => true
  | .string _ => true
  | _ => false

/-! ## The layout of the format, in the words of the specification -/

/-- The key unit of the format: "the key encoded as a bare Number or Text
tagged unit".  A Number key is the tag 2 and its 8 raw bytes, a Text key is the
tag 3, the 8-byte length and the raw bytes, whatever the bytes of the text
are. -/
def specKey : LuaValue → List Nat
  | .number d => 2 :: le64 d
  | .string s => 3 :: (le64 s.length ++ s)
  | _ => []

mutual
/-- The reference layout `ser(v)` of the format: Absence is `[0]`, a Boolean
`[1, b]`, a Number the tag 2 and its 8 raw bytes, a Text the tag 3, the 8-byte
length and the raw bytes, a Table the tag 4, the 8-byte count of its entries
and, for each entry in iteration order, the key unit and the value. -/
def specSer : LuaValue → List Nat
  | .nil => [0]
  | .boolean b => [1, if b then 1 else 0]
  | .number d => 2 :: le64 d
  | .string s => 3 :: (le64 s.length ++ s)
  | .table es => 4 :: (le64 es.length ++ specSerEntries es)
  | .other => []
/-- The entries of a table in the reference layout. -/
def specSerEntries : List (LuaValue × LuaValue) → List Nat
  | [] => []
  | (k, v) :: rest => specKey k ++ (specSer v ++ specSerEntries rest)
end

/-- The size of the key unit of the format: 9 bytes for a Number key, 9 + N
bytes for a Text key of N bytes. -/
def specKeySize : LuaValue → Nat
  | .number _ => 9
  | .string s => 9 + s.length
  | _ => 0

mutual
/-- The exact encoded size `S` of the format: 1 for Absence, 2 for Boolean, 9
for Number, 9 + N for a Text of N bytes, 9 plus the sizes of all key units and
value units for a Table. -/
def specSize : LuaValue → Nat
  | .nil => 1
  | .boolean _ => 2
  | .number _ => 9
  | .string s => 9 + s.length
  | .table es => 9 + specEntriesSize es
  | .other => 0
/-- The sizes of all key units and value units of the entries. -/
def specEntriesSize : List (LuaValue × LuaValue) → Nat
  | [] => 0
  | (k, v) :: rest => specKeySize k + (specSize v + specEntriesSize rest)
end

/-! ## `deserialize_internal` with 64-bit pointer arithmetic -/

/-- The pointer sum `p + n` as the compiled code computes it, modulo
`2 ^ 64`. -/
def padd (p n : Nat) : Nat := (p + n) % 18446744073709551616

/-- The call `lua_pushlstring(L, s, len)`: the string made of the `len` bytes
at `s`, or `none` for the memory error that the call raises when the host
does not create a string of `len` bytes (`alloc len = false`). -/
def lua_pushlstring (alloc : Nat → Bool) (mem : Mem) (s len : Nat) : Option LuaValue :=
  if alloc len then some (.string (readBytes mem s len)) else none

/-- What reading the key of a table entry leaves behind: the code of the
`return`, a memory error raised by `lua_pushlstring`, or the cursor behind the
key and the key pushed. -/
inductive KeyResult where
  | error (rc : Int)
  | raised
  | ok (pos : Nat) (key : LuaValue)

/-- The key of a table entry read at `pos` (lines 204-231), every pointer sum
taken modulo `2 ^ 64`. -/
def read_key64 (alloc : Nat → Bool) (mem : Mem) (pos end_ : Nat) : KeyResult :=
  let keytype := mem.read pos
  let pos := padd pos 1
  if keytype = 2 then
    if padd pos 8 > end_ then .error (-1)
    else .ok (padd pos 8) (.number (read64 mem pos))
  else if keytype = 3 then
    if padd pos 8 > end_ then .error (-1)
    else
      let keylen := read64 mem pos
      let pos := padd pos 8
      if padd pos keylen > end_ then .error (-1)
      else
        match lua_pushlstring alloc mem pos keylen with
        | none => .raised
        | some key => .ok (padd pos keylen) key
  else .error (-9)

mutual
/-- The function `deserialize_internal` (lines 136-248), every pointer sum
taken modulo `2 ^ 64`, with a bound on the number of nested calls and loop
iterations; `none` when the bound is reached. -/
def deserialize_fuel64 (alloc : Nat → Bool) : Nat → Mem → Nat → Nat → Stack → Option Outcome
  | 0, _, _, _, _ => none
  | fuel + 1, mem, buffer, end_, st =>
      if padd buffer 1 > end_ then some (.ret (-1) buffer st)
      else
        let type := mem.read buffer
        let pos := padd buffer 1
        if type = 0 then some (.ret 0 pos (.nil :: st))
        else if type = 1 then
          if padd pos 1 > end_ then some (.ret (-1) buffer st)
          else some (.ret 0 (padd pos 1) (.boolean (mem.read pos != 0) :: st))
        else if type = 2 then
          if padd pos 8 > end_ then some (.ret (-1) buffer st)
          else some (.ret 0 (padd pos 8) (.number (read64 mem pos) :: st))
        else if type = 3 then
          if padd pos 8 > end_ then some (.ret (-1) buffer st)
          else
            let len := read64 mem pos
            let pos := padd pos 8
            if padd pos len > end_ then some (.ret (-1) buffer st)
            else
              match lua_pushlstring alloc mem pos len with
              | none => some .raised
              | some s => some (.ret 0 (padd pos len) (s :: st))
        else if type = 4 then
          if padd pos 8 > end_ then some (.ret (-1) buffer st)
          else
            let len := read64 mem pos
            let pos := padd pos 8
            if padd pos len > end_ then some (.ret (-1) buffer st)
            else table_loop64 alloc fuel mem buffer len 0 pos end_ (.table [] :: st)
        else some (.ret (-9) buffer st)
termination_by structural fuel => fuel
/-- The loop `while (cnt < len && pos < end)` of the table case (lines
200-238) and the end of the function behind it, every pointer sum taken modulo
`2 ^ 64`. -/
def table_loop64 (alloc : Nat → Bool) :
    Nat → Mem → Nat → Nat → Nat → Nat → Nat → Stack → Option Outcome
  | 0, _, _, _, _, _, _, _ => none
  | fuel + 1, mem, buffer, len, cnt, pos, end_, st =>
      if cnt < len ∧ pos < end_ then
        match read_key64 alloc mem pos end_ with
        | .error rc => some (.ret rc buffer st)
        | .raised => some .raised
        | .ok pos1 key =>
            -- line 234: the return code of the nested call is not looked at
            match deserialize_fuel64 alloc fuel mem pos1 end_ (key :: st) with
            | none => none
            | some (.ret _ pos2 st2) =>
                match lua_settable st2 with
                | .ok st3 => table_loop64 alloc fuel mem buffer len (cnt + 1) pos2 end_ st3
                | .raised => some .raised
                | .fault => some .fault
            | some .raised => some .raised
            | some .fault => some .fault
      else some (.ret 0 pos st)
termination_by structural fuel => fuel
end


/-! ## Memory lemmas -/

theorem le64_length (n : Nat) : (le64 n).length = 8 := rfl

theorem fromLE_le64 (n : Nat) (h : n < 18446744073709551616) : fromLE (le64 n) = n := by
  simp only [le64, fromLE]
  omega

theorem memcpy_apply (bs : List Nat) : ∀ (m : Mem) (d a : Nat),
    memcpy m d bs a = if d ≤ a ∧ a < d + bs.length then bs.getD (a - d) 0 % 256 else m a := by
  induction bs with
  | nil =>
    intro m d a
    have h : ¬ (d ≤ a ∧ a < d) := by omega
    simp [memcpy, h]
  | cons b bs ih =>
    intro m d a
    simp only [memcpy, ih, List.length_cons, Mem.write]
    by_cases h1 : d + 1 ≤ a
    · by_cases h2 : a < d + 1 + bs.length
      · have h3 : a - d = (a - (d + 1)) + 1 := by omega
        have h4 : d ≤ a ∧ a < d + (bs.length + 1) := by omega
        simp [h1, h2, h3, h4]
      · have h4 : ¬ (d ≤ a ∧ a < d + (bs.length + 1)) := by omega
        have h5 : a ≠ d := by omega
        simp [h2, h4, h5]
    · by_cases h2 : a = d
      · subst h2; simp
      · have h4 : ¬ (d ≤ a ∧ a < d + (bs.length + 1)) := by omega
        simp [h1, h2, h4]

theorem memcpy_append (xs ys : List Nat) : ∀ (m : Mem) (d : Nat),
    memcpy m d (xs ++ ys) = memcpy (memcpy m d xs) (d + xs.length) ys := by
  induction xs with
  | nil => intro m d; simp [memcpy]
  | cons x xs ih =>
    intro m d
    have h : d + 1 + xs.length = d + (xs.length + 1) := by omega
    simp only [List.cons_append, memcpy, List.append_eq, ih, List.length_cons, h]

theorem memcpy_comm (m : Mem) (a b : Nat) (xs ys : List Nat)
    (h : a + xs.length ≤ b ∨ b + ys.length ≤ a) :
    memcpy (memcpy m a xs) b ys = memcpy (memcpy m b ys) a xs := by
  funext x
  simp only [memcpy_apply]
  by_cases h1 : b ≤ x ∧ x < b + ys.length
  · have h2 : ¬ (a ≤ x ∧ x < a + xs.length) := by omega
    simp [h1, h2]
  · simp [h1]

theorem At_append (m : Mem) (xs ys : List Nat) : ∀ p,
    At m p (xs ++ ys) ↔ At m p xs ∧ At m (p + xs.length) ys := by
  induction xs with
  | nil => intro p; simp [At]
  | cons x xs ih =>
    intro p
    have h : p + 1 + xs.length = p + (xs.length + 1) := by omega
    simp only [List.cons_append, At, List.append_eq, ih, List.length_cons, and_assoc, h]

theorem readBytes_of_At (m : Mem) (bs : List Nat) : ∀ p, At m p bs → readBytes m p bs.length = bs := by
  induction bs with
  | nil => intro p _; rfl
  | cons b bs ih =>
    intro p h
    simp only [List.length_cons, readBytes]
    rw [h.1, ih _ h.2]

theorem read64_of_At (m : Mem) (p n : Nat) (hn : n < 18446744073709551616)
    (h : At m p (le64 n)) : read64 m p = n := by
  have := readBytes_of_At m (le64 n) p h
  rw [le64_length] at this
  rw [read64, this, fromLE_le64 n hn]

/-! ## The encoder writes the reference layout -/

theorem memcpy_cons (m : Mem) (d b : Nat) (bs : List Nat) :
    memcpy m d (b :: bs) = memcpy (m.write d b) (d + 1) bs := rfl

theorem one_add_eight_add (x : Nat) : 1 + (8 + x) = 9 + x := by omega

mutual
theorem serialize_internal_eq (cvt : Str2Number) : ∀ (v : LuaValue) (mem : Mem) (buffer end_ : Nat),
    (serialize_internal cvt v mem buffer end_).rc = 0 →
    serialize_internal cvt v mem buffer end_ =
      ⟨0, buffer + (ser cvt v).length, memcpy mem buffer (ser cvt v)⟩
  | .nil, mem, buffer, end_ => by
      simp only [serialize_internal, ser]
      split <;> simp [memcpy]
  | .boolean b, mem, buffer, end_ => by
      simp only [serialize_internal, ser]
      split <;> simp [memcpy]
  | .number d, mem, buffer, end_ => by
      simp only [serialize_internal, ser]
      split <;> simp [memcpy_cons, le64_length, Nat.add_assoc]
  | .string s, mem, buffer, end_ => by
      simp only [serialize_internal, ser]
      split
      · simp
      · intro _
        simp only [memcpy_cons, memcpy_append, le64_length, List.length_cons, List.length_append,
          SerResult.mk.injEq, true_and]
        constructor <;> first | omega | trivial
  | .other, mem, buffer, end_ => by
      simp [serialize_internal]
  | .table es, mem, buffer, end_ => by
      simp only [serialize_internal, ser]
      by_cases h1 : buffer + 1 > end_
      · simp [h1]
      · simp only [h1, ↓reduceIte]
        by_cases h2 : (serialize_entries cvt es (mem.write buffer 4) (buffer + 1 + 8) end_ 0).rc = 0
        · have h3 := serialize_entries_eq cvt es (mem.write buffer 4) (buffer + 1 + 8) end_ 0 h2
          intro _
          rw [h3]
          simp only [memcpy_cons, memcpy_append, le64_length, List.length_cons, List.length_append,
            SerResult.mk.injEq, true_and, Nat.zero_add, ne_eq, not_true_eq_false, ↓reduceIte]
          refine ⟨by omega, ?_⟩
          rw [memcpy_comm, Nat.add_assoc buffer 1 8]
          right
          rw [le64_length]
        · simp only [ne_eq, h2, not_false_eq_true, ↓reduceIte]
          intro h; first | exact absurd h h2 | exact h.elim
theorem serialize_entries_eq (cvt : Str2Number) :
    ∀ (es : List (LuaValue × LuaValue)) (mem : Mem) (pos end_ len : Nat),
    (serialize_entries cvt es mem pos end_ len).rc = 0 →
    serialize_entries cvt es mem pos end_ len =
      ⟨0, pos + (serEntries cvt es).length, memcpy mem pos (serEntries cvt es), len + es.length⟩
  | [], mem, pos, end_, len => by
      simp [serialize_entries, serEntries, memcpy]
  | (k, v) :: rest, mem, pos, end_, len => by
      simp only [serialize_entries, serEntries, key]
      cases hn : lua_isnumber cvt k
      · simp only [Bool.false_eq_true, ↓reduceIte]
        cases hs : lua_isstring k
        · simp
        · simp only [↓reduceIte]
          by_cases h1 : pos + 1 + 8 + (lua_tolstring k).length > end_
          · simp [h1]
          · simp only [h1, ↓reduceIte]
            by_cases h2 : (serialize_internal cvt v
                (memcpy (memcpy (mem.write pos 3) (pos + 1) (le64 (lua_tolstring k).length))
                  (pos + 1 + 8) (lua_tolstring k))
                (pos + 1 + 8 + (lua_tolstring k).length) end_).rc = 0
            · have hv := serialize_internal_eq cvt v _ _ end_ h2
              simp only [ne_eq, h2, not_true_eq_false, ↓reduceIte]
              rw [hv]
              dsimp only
              intro h
              have hr := serialize_entries_eq cvt rest _ _ end_ (len + 1) h
              rw [hr]
              simp only [memcpy_cons, memcpy_append, le64_length, List.length_cons,
                List.length_append, List.cons_append, LoopResult.mk.injEq, true_and]
              repeat' constructor
              all_goals first | omega | rfl | simp only [Nat.add_assoc, Nat.reduceAdd, one_add_eight_add]
            · simp only [ne_eq, h2, not_false_eq_true, ↓reduceIte]
              intro h; first | exact absurd h h2 | exact h.elim
      · simp only [↓reduceIte]
        by_cases h1 : pos + 1 + 8 > end_
        · simp [h1]
        · simp only [h1, ↓reduceIte]
          by_cases h2 : (serialize_internal cvt v
              (memcpy (mem.write pos 2) (pos + 1) (le64 (lua_tonumber cvt k))) (pos + 1 + 8) end_).rc = 0
          · have hv := serialize_internal_eq cvt v _ _ end_ h2
            simp only [ne_eq, h2, not_true_eq_false, ↓reduceIte]
            rw [hv]
            dsimp only
            intro h
            have hr := serialize_entries_eq cvt rest _ _ end_ (len + 1) h
            rw [hr]
            simp only [memcpy_cons, memcpy_append, le64_length, List.length_cons,
              List.length_append, List.cons_append, LoopResult.mk.injEq, true_and]
            repeat' constructor
            all_goals omega
          · simp only [ne_eq, h2, not_false_eq_true, ↓reduceIte]
            intro h; first | exact absurd h h2 | exact h.elim
end

theorem key_length (cvt : Str2Number) (k : LuaValue) (h : lua_isstring k = true) :
    (key cvt k).length = keySize cvt k := by
  simp only [key, keySize]
  cases hn : lua_isnumber cvt k
  · simp [h, le64_length]; omega
  · simp [le64_length]

mutual
theorem ser_length (cvt : Str2Number) : ∀ (v : LuaValue), Encodable v = true →
    (ser cvt v).length = encodedSize cvt v
  | .nil, _ => rfl
  | .boolean _, _ => rfl
  | .number _, _ => rfl
  | .string s, _ => by simp [ser, encodedSize, le64_length]; omega
  | .other, h => by simp [Encodable] at h
  | .table es, h => by
      have := serEntries_length cvt es (by simpa [Encodable] using h)
      simp [ser, encodedSize, le64_length, this]; omega
theorem serEntries_length (cvt : Str2Number) : ∀ (es : List (LuaValue × LuaValue)),
    EncodableEntries es = true → (serEntries cvt es).length = entriesSize cvt es
  | [], _ => rfl
  | (k, v) :: rest, h => by
      simp only [EncodableEntries, Bool.and_eq_true] at h
      simp [serEntries, entriesSize, key_length cvt k h.1.1, ser_length cvt v h.1.2,
        serEntries_length cvt rest h.2]
end

mutual
theorem serialize_internal_rc (cvt : Str2Number) :
    ∀ (v : LuaValue) (mem : Mem) (buffer end_ : Nat), Encodable v = true →
    buffer + encodedSize cvt v ≤ end_ → (serialize_internal cvt v mem buffer end_).rc = 0
  | .nil, mem, buffer, end_, _, h => by
      simp only [encodedSize] at h
      have : ¬ buffer + 1 > end_ := by omega
      simp [serialize_internal, this]
  | .boolean _, mem, buffer, end_, _, h => by
      simp only [encodedSize] at h
      have : ¬ buffer + 2 * 1 > end_ := by omega
      simp [serialize_internal, this]
  | .number _, mem, buffer, end_, _, h => by
      simp only [encodedSize] at h
      have : ¬ buffer + 1 + 8 > end_ := by omega
      simp [serialize_internal, this]
  | .string s, mem, buffer, end_, _, h => by
      simp only [encodedSize] at h
      have : ¬ buffer + 1 + 8 + s.length > end_ := by omega
      simp [serialize_internal, this]
  | .other, _, _, _, h, _ => by simp [Encodable] at h
  | .table es, mem, buffer, end_, he, h => by
      simp only [encodedSize] at h
      simp only [Encodable] at he
      have h1 : ¬ buffer + 1 > end_ := by omega
      have h2 := serialize_entries_rc cvt es (mem.write buffer 4) (buffer + 1 + 8) end_ 0 he
        (by omega)
      simp [serialize_internal, h1, h2]
theorem serialize_entries_rc (cvt : Str2Number) :
    ∀ (es : List (LuaValue × LuaValue)) (mem : Mem) (pos end_ len : Nat),
    EncodableEntries es = true → pos + entriesSize cvt es ≤ end_ →
    (serialize_entries cvt es mem pos end_ len).rc = 0
  | [], mem, pos, end_, len, _, _ => by simp [serialize_entries]
  | (k, v) :: rest, mem, pos, end_, len, he, h => by
      simp only [EncodableEntries, Bool.and_eq_true] at he
      simp only [entriesSize, keySize] at h
      have hl := ser_length cvt v he.1.2
      simp only [serialize_entries]
      cases hn : lua_isnumber cvt k
      · simp only [hn, Bool.false_eq_true, ↓reduceIte] at h
        have h1 : ¬ pos + 1 + 8 + (lua_tolstring k).length > end_ := by omega
        have h2 := serialize_internal_rc cvt v
          (memcpy (memcpy (mem.write pos 3) (pos + 1) (le64 (lua_tolstring k).length))
            (pos + 1 + 8) (lua_tolstring k))
          (pos + 1 + 8 + (lua_tolstring k).length) end_ he.1.2 (by omega)
        have h3 := serialize_internal_eq cvt v _ _ _ h2
        simp only [Bool.false_eq_true, ↓reduceIte, he.1.1, h1, ne_eq, h2, not_true_eq_false]
        rw [h3]
        exact serialize_entries_rc cvt rest _ _ end_ _ he.2 (by dsimp only; omega)
      · simp only [hn, ↓reduceIte] at h
        have h1 : ¬ pos + 1 + 8 > end_ := by omega
        have h2 := serialize_internal_rc cvt v
          (memcpy (mem.write pos 2) (pos + 1) (le64 (lua_tonumber cvt k))) (pos + 1 + 8) end_
          he.1.2 (by omega)
        have h3 := serialize_internal_eq cvt v _ _ _ h2
        simp only [↓reduceIte, h1, ne_eq, h2, not_true_eq_false]
        rw [h3]
        exact serialize_entries_rc cvt rest _ _ end_ _ he.2 (by dsimp only; omega)
end

/-! ## The decoder: unfolding, recursion bound -/

theorem deserialize_fuel_zero (mem : Mem) (buffer end_ : Nat) (st : Stack) :
    deserialize_fuel 0 mem buffer end_ st = none := rfl

theorem table_loop_zero (mem : Mem) (buffer len cnt pos end_ : Nat) (st : Stack) :
    table_loop 0 mem buffer len cnt pos end_ st = none := rfl

theorem deserialize_fuel_succ (fuel : Nat) (mem : Mem) (buffer end_ : Nat) (st : Stack) :
    deserialize_fuel (fuel + 1) mem buffer end_ st =
      if buffer + 1 > end_ then some (.ret (-1) buffer st)
      else if mem.read buffer = 0 then some (.ret 0 (buffer + 1) (.nil :: st))
      else if mem.read buffer = 1 then
        if buffer + 1 + 1 > end_ then some (.ret (-1) buffer st)
        else some (.ret 0 (buffer + 1 + 1) (.boolean (mem.read (buffer + 1) != 0) :: st))
      else if mem.read buffer = 2 then
        if buffer + 1 + 8 > end_ then some (.ret (-1) buffer st)
        else some (.ret 0 (buffer + 1 + 8) (.number (read64 mem (buffer + 1)) :: st))
      else if mem.read buffer = 3 then
        if buffer + 1 + 8 > end_ then some (.ret (-1) buffer st)
        else if buffer + 1 + 8 + read64 mem (buffer + 1) > end_ then some (.ret (-1) buffer st)
        else some (.ret 0 (buffer + 1 + 8 + read64 mem (buffer + 1))
          (.string (readBytes mem (buffer + 1 + 8) (read64 mem (buffer + 1))) :: st))
      else if mem.read buffer = 4 then
        if buffer + 1 + 8 > end_ then some (.ret (-1) buffer st)
        else if buffer + 1 + 8 + read64 mem (buffer + 1) > end_ then some (.ret (-1) buffer st)
        else table_loop fuel mem buffer (read64 mem (buffer + 1)) 0 (buffer + 1 + 8) end_
          (.table [] :: st)
      else some (.ret (-9) buffer st) := rfl

theorem table_loop_succ (fuel : Nat) (mem : Mem) (buffer len cnt pos end_ : Nat) (st : Stack) :
    table_loop (fuel + 1) mem buffer len cnt pos end_ st =
      if cnt < len ∧ pos < end_ then
        match read_key mem pos end_ with
        | .error rc => some (.ret rc buffer st)
        | .ok (pos1, key) =>
            match deserialize_fuel fuel mem pos1 end_ (key :: st) with
            | none => none
            | some (.ret _ pos2 st2) =>
                match lua_settable st2 with
                | .ok st3 => table_loop fuel mem buffer len (cnt + 1) pos2 end_ st3
                | .raised => some .raised
                | .fault => some .fault
            | some .raised => some .raised
            | some .fault => some .fault
      else some (.ret 0 pos st) := rfl

theorem fuel_succ : ∀ (f : Nat),
    (∀ mem buffer end_ st o, deserialize_fuel f mem buffer end_ st = some o →
      deserialize_fuel (f + 1) mem buffer end_ st = some o) ∧
    (∀ mem buffer len cnt pos end_ st o, table_loop f mem buffer len cnt pos end_ st = some o →
      table_loop (f + 1) mem buffer len cnt pos end_ st = some o) := by
  intro f
  induction f with
  | zero =>
    constructor
    · intro mem buffer end_ st o h; simp [deserialize_fuel_zero] at h
    · intro mem buffer len cnt pos end_ st o h; simp [table_loop_zero] at h
  | succ f ih =>
    constructor
    · intro mem buffer end_ st o h
      rw [deserialize_fuel_succ] at h ⊢
      by_cases c1 : buffer + 1 > end_
      · simp only [c1, ↓reduceIte] at h ⊢; exact h
      simp only [c1, ↓reduceIte] at h ⊢
      by_cases c2 : mem.read buffer = 0
      · simp only [c2, ↓reduceIte] at h ⊢; exact h
      simp only [c2, ↓reduceIte] at h ⊢
      by_cases c3 : mem.read buffer = 1
      · simp only [c3, ↓reduceIte] at h ⊢; exact h
      simp only [c3, ↓reduceIte] at h ⊢
      by_cases c4 : mem.read buffer = 2
      · simp only [c4, ↓reduceIte] at h ⊢; exact h
      simp only [c4, ↓reduceIte] at h ⊢
      by_cases c5 : mem.read buffer = 3
      · simp only [c5, ↓reduceIte] at h ⊢; exact h
      simp only [c5, ↓reduceIte] at h ⊢
      by_cases c6 : mem.read buffer = 4
      · simp only [c6, ↓reduceIte] at h ⊢
        by_cases c7 : buffer + 1 + 8 > end_
        · simp only [c7, ↓reduceIte] at h ⊢; exact h
        simp only [c7, ↓reduceIte] at h ⊢
        by_cases c8 : buffer + 1 + 8 + read64 mem (buffer + 1) > end_
        · simp only [c8, ↓reduceIte] at h ⊢; exact h
        simp only [c8, ↓reduceIte] at h ⊢
        exact ih.2 _ _ _ _ _ _ _ _ h
      simp only [c6, ↓reduceIte] at h ⊢; exact h
    · intro mem buffer len cnt pos end_ st o h
      rw [table_loop_succ] at h ⊢
      by_cases c1 : cnt < len ∧ pos < end_
      · simp only [c1, and_self, ↓reduceIte] at h ⊢
        cases hk : read_key mem pos end_ with
        | error rc => simp only [hk] at h ⊢; exact h
        | ok pk =>
          obtain ⟨p1, k⟩ := pk
          simp only [hk] at h ⊢
          cases hd : deserialize_fuel f mem p1 end_ (k :: st) with
          | none => simp [hd] at h
          | some out =>
            rw [ih.1 _ _ _ _ _ hd]
            rw [hd] at h
            cases out with
            | ret rc p2 st2 =>
              simp only at h ⊢
              cases hs : lua_settable st2 with
              | ok st3 => simp only [hs] at h ⊢; exact ih.2 _ _ _ _ _ _ _ _ h
              | raised => simp only [hs] at h ⊢; exact h
              | fault => simp only [hs] at h ⊢; exact h
            | raised => exact h
            | fault => exact h
      · simp only [c1, ↓reduceIte] at h ⊢; exact h

theorem deserialize_fuel_mono {f g : Nat} (hfg : f ≤ g) {mem : Mem} {buffer end_ : Nat}
    {st : Stack} {o : Outcome} (h : deserialize_fuel f mem buffer end_ st = some o) :
    deserialize_fuel g mem buffer end_ st = some o := by
  induction hfg with
  | refl => exact h
  | step _ ih => exact (fuel_succ _).1 _ _ _ _ _ ih

theorem table_loop_mono {f g : Nat} (hfg : f ≤ g) {mem : Mem} {buffer len cnt pos end_ : Nat}
    {st : Stack} {o : Outcome} (h : table_loop f mem buffer len cnt pos end_ st = some o) :
    table_loop g mem buffer len cnt pos end_ st = some o := by
  induction hfg with
  | refl => exact h
  | step _ ih => exact (fuel_succ _).2 _ _ _ _ _ _ _ _ ih

theorem read_key_ok {mem : Mem} {pos end_ p1 : Nat} {k : LuaValue}
    (h : read_key mem pos end_ = .ok (p1, k)) : pos + 9 ≤ p1 ∧ p1 ≤ end_ := by
  simp only [read_key] at h
  by_cases c2 : mem.read pos = 2
  · simp only [c2, ↓reduceIte] at h
    by_cases c : pos + 1 + 8 > end_
    · simp [c] at h
    · simp only [c, ↓reduceIte, Except.ok.injEq, Prod.mk.injEq] at h
      omega
  · simp only [c2, ↓reduceIte] at h
    by_cases c3 : mem.read pos = 3
    · simp only [c3, ↓reduceIte] at h
      by_cases c : pos + 1 + 8 > end_
      · simp [c] at h
      · simp only [c, ↓reduceIte] at h
        by_cases c' : pos + 1 + 8 + read64 mem (pos + 1) > end_
        · simp [c'] at h
        · simp only [c', ↓reduceIte, Except.ok.injEq, Prod.mk.injEq] at h
          omega
    · simp [c3] at h

theorem fuel_enough : ∀ (f : Nat),
    (∀ mem buffer end_ st, end_ - buffer < f →
      ∃ o, deserialize_fuel f mem buffer end_ st = some o ∧ o.cursorGE buffer) ∧
    (∀ mem buffer len cnt pos end_ st, end_ - pos < f →
      ∃ o, table_loop f mem buffer len cnt pos end_ st = some o ∧
        o.cursorGE (min buffer pos)) := by
  intro f
  induction f with
  | zero =>
    constructor
    · intro mem buffer end_ st h; omega
    · intro mem buffer len cnt pos end_ st h; omega
  | succ f ih =>
    constructor
    · intro mem buffer end_ st hf
      rw [deserialize_fuel_succ]
      by_cases c1 : buffer + 1 > end_
      · simp only [c1, ↓reduceIte]; exact ⟨_, rfl, Nat.le_refl _⟩
      simp only [c1, ↓reduceIte]
      by_cases c2 : mem.read buffer = 0
      · simp only [c2, ↓reduceIte]; exact ⟨_, rfl, by simp [Outcome.cursorGE]⟩
      simp only [c2, ↓reduceIte]
      by_cases c3 : mem.read buffer = 1
      · simp only [c3, ↓reduceIte]
        split
        · exact ⟨_, rfl, Nat.le_refl _⟩
        · exact ⟨_, rfl, by simp only [Outcome.cursorGE]; omega⟩
      simp only [c3, ↓reduceIte]
      by_cases c4 : mem.read buffer = 2
      · simp only [c4, ↓reduceIte]
        split
        · exact ⟨_, rfl, Nat.le_refl _⟩
        · exact ⟨_, rfl, by simp only [Outcome.cursorGE]; omega⟩
      simp only [c4, ↓reduceIte]
      by_cases c5 : mem.read buffer = 3
      · simp only [c5, ↓reduceIte]
        split
        · exact ⟨_, rfl, Nat.le_refl _⟩
        · split
          · exact ⟨_, rfl, Nat.le_refl _⟩
          · exact ⟨_, rfl, by simp only [Outcome.cursorGE]; omega⟩
      simp only [c5, ↓reduceIte]
      by_cases c6 : mem.read buffer = 4
      · simp only [c6, ↓reduceIte]
        by_cases c7 : buffer + 1 + 8 > end_
        · simp only [c7, ↓reduceIte]; exact ⟨_, rfl, Nat.le_refl _⟩
        simp only [c7, ↓reduceIte]
        by_cases c8 : buffer + 1 + 8 + read64 mem (buffer + 1) > end_
        · simp only [c8, ↓reduceIte]; exact ⟨_, rfl, Nat.le_refl _⟩
        simp only [c8, ↓reduceIte]
        obtain ⟨o, ho, hp⟩ := ih.2 mem buffer (read64 mem (buffer + 1)) 0 (buffer + 1 + 8) end_
          (.table [] :: st) (by omega)
        refine ⟨o, ho, ?_⟩
        cases o with
        | ret rc p s =>
          simp only [Outcome.cursorGE] at hp ⊢
          omega
        | raised => trivial
        | fault => trivial
      simp only [c6, ↓reduceIte]; exact ⟨_, rfl, Nat.le_refl _⟩
    · intro mem buffer len cnt pos end_ st hf
      rw [table_loop_succ]
      by_cases c1 : cnt < len ∧ pos < end_
      · simp only [c1, and_self, ↓reduceIte]
        cases hk : read_key mem pos end_ with
        | error rc => exact ⟨_, rfl, by simp only [Outcome.cursorGE]; omega⟩
        | ok pk =>
          obtain ⟨p1, k⟩ := pk
          have hp1 := read_key_ok hk
          obtain ⟨o, ho, hc⟩ := ih.1 mem p1 end_ (k :: st) (by omega)
          simp only [ho]
          cases o with
          | ret rc p2 st2 =>
            simp only [Outcome.cursorGE] at hc
            simp only
            cases hs : lua_settable st2 with
            | ok st3 =>
              obtain ⟨o2, ho2, hc2⟩ := ih.2 mem buffer len (cnt + 1) p2 end_ st3 (by omega)
              refine ⟨o2, ho2, ?_⟩
              cases o2 with
              | ret rc3 p3 st4 => simp only [Outcome.cursorGE] at hc2 ⊢; omega
              | raised => trivial
              | fault => trivial
            | raised => exact ⟨_, rfl, trivial⟩
            | fault => exact ⟨_, rfl, trivial⟩
          | raised => exact ⟨_, rfl, trivial⟩
          | fault => exact ⟨_, rfl, trivial⟩
      · simp only [c1, ↓reduceIte]
        exact ⟨_, rfl, by simp only [Outcome.cursorGE]; omega⟩

/-- The bound on the recursion used by `deserialize_internal` is never reached. -/
theorem deserialize_fuel_total (mem : Mem) (buffer end_ : Nat) (st : Stack) :
    ∃ o, deserialize_fuel (end_ - buffer + 1) mem buffer end_ st = some o :=
  let ⟨o, ho, _⟩ := (fuel_enough (end_ - buffer + 1)).1 mem buffer end_ st (by omega)
  ⟨o, ho⟩

/-- Any bound under which the bounded decoder finishes gives the result of
`deserialize_internal`. -/
theorem deserialize_internal_of_fuel {f : Nat} {mem : Mem} {buffer end_ : Nat} {o : Outcome}
    (h : deserialize_fuel f mem buffer end_ [] = some o) :
    deserialize_internal mem buffer end_ = o := by
  obtain ⟨o2, h2⟩ := deserialize_fuel_total mem buffer end_ []
  have e1 := deserialize_fuel_mono (Nat.le_max_left f (end_ - buffer + 1)) h
  have e2 := deserialize_fuel_mono (Nat.le_max_right f (end_ - buffer + 1)) h2
  rw [e1] at e2
  simp only [deserialize_internal, h2, Option.getD_some]
  exact (Option.some.inj e2).symm

/-! ## Decoding the reference layout -/

theorem At_cons {m : Mem} {p b : Nat} {bs : List Nat} :
    At m p (b :: bs) ↔ m.read p = b ∧ At m (p + 1) bs := Iff.rfl

theorem At_le64 {m : Mem} {p n : Nat} {bs : List Nat} (hn : n < 18446744073709551616)
    (h : At m p (le64 n ++ bs)) : read64 m p = n ∧ At m (p + 8) bs := by
  rw [At_append, le64_length] at h
  exact ⟨read64_of_At m p n hn h.1, h.2⟩

theorem read_key_of_At {mem : Mem} {pos end_ : Nat} {k : LuaValue} (hk : WireKey k = true)
    (hat : At mem pos (key noCvt k)) (hend : pos + (key noCvt k).length ≤ end_) :
    read_key mem pos end_ = .ok (pos + (key noCvt k).length, k) := by
  cases k with
  | number d =>
    simp only [WireKey, Bool.and_eq_true, decide_eq_true_eq] at hk
    simp only [key, lua_isnumber, ↓reduceIte, lua_tonumber, List.length_cons, le64_length] at hat hend ⊢
    have h1 := hat.1
    have h2 := read64_of_At mem (pos + 1) d hk.1 hat.2
    have h3 : ¬ pos + 1 + 8 > end_ := by omega
    simp only [read_key, h1, ↓reduceIte, h3, h2]
  | string s =>
    simp only [WireKey, Bool.and_eq_true, decide_eq_true_eq] at hk
    simp only [key, lua_isnumber, noCvt, Option.isSome_none, Bool.false_eq_true, ↓reduceIte,
      lua_isstring, lua_tolstring, List.length_cons, List.length_append, le64_length] at hat hend ⊢
    have h1 := hat.1
    obtain ⟨h2, h4⟩ := At_le64 hk.1 hat.2
    have h3 : ¬ pos + 1 + 8 > end_ := by omega
    have h5 : ¬ pos + 1 + 8 + s.length > end_ := by omega
    have h6 := readBytes_of_At mem s (pos + 1 + 8) h4
    have h7 : (3 : Nat) ≠ 2 := by decide
    simp only [read_key, h1, h7, ↓reduceIte, h3, h2, h5, h6, Except.ok.injEq, Prod.mk.injEq,
      and_true]
    omega
  | nil => simp [WireKey] at hk
  | boolean b => simp [WireKey] at hk
  | table es => simp [WireKey] at hk
  | other => simp [WireKey] at hk

theorem lua_settable_wire {k : LuaValue} (hk : WireKey k = true) (v : LuaValue)
    (es : List (LuaValue × LuaValue)) (rest : Stack) :
    lua_settable (v :: k :: .table es :: rest) = .ok (.table (tableSet es k v) :: rest) := by
  cases k with
  | number d =>
    simp only [WireKey, Bool.and_eq_true, decide_eq_true_eq, Bool.not_eq_true'] at hk
    simp [lua_settable, hk.2]
  | string s => simp [lua_settable]
  | nil => simp [WireKey] at hk
  | boolean b => simp [WireKey] at hk
  | table es => simp [WireKey] at hk
  | other => simp [WireKey] at hk

theorem key_length_le (k : LuaValue) (hk : WireKey k = true) : 9 ≤ (key noCvt k).length := by
  cases k <;> simp [WireKey] at hk <;> simp [key, lua_isnumber, lua_isstring, noCvt, le64_length]

mutual
theorem ser_length_pos : ∀ (v : LuaValue), Wire v = true → 1 ≤ (ser noCvt v).length
  | .nil, _ => by simp [ser]
  | .boolean _, _ => by simp [ser]
  | .number _, _ => by simp [ser]
  | .string _, _ => by simp [ser]
  | .table _, _ => by simp [ser]
  | .other, h => by simp [Wire] at h
theorem serEntries_length_le : ∀ (es : List (LuaValue × LuaValue)), WireEntries es = true →
    10 * es.length ≤ (serEntries noCvt es).length
  | [], _ => by simp
  | (k, v) :: rest, h => by
      simp only [WireEntries, Bool.and_eq_true] at h
      have h1 := key_length_le k h.1.1
      have h2 := ser_length_pos v h.1.2
      have h3 := serEntries_length_le rest h.2
      simp only [serEntries, List.length_cons, List.length_append]
      omega
end

theorem table_loop_exit (fuel : Nat) (mem : Mem) (buffer len cnt pos end_ : Nat) (st : Stack)
    (h : ¬ (cnt < len ∧ pos < end_)) :
    table_loop (fuel + 1) mem buffer len cnt pos end_ st = some (.ret 0 pos st) := by
  rw [table_loop_succ]
  simp only [h, ↓reduceIte]

/-- One iteration of the table loop on an entry whose key is read and whose
value decodes. -/
theorem table_loop_iter {f1 f2 : Nat} {mem : Mem} {buffer len cnt pos end_ p1 p2 : Nat}
    {k v : LuaValue} {acc : List (LuaValue × LuaValue)} {st : Stack} {rc : Int} {o : Outcome}
    (hc : cnt < len) (hp : pos < end_) (hk : read_key mem pos end_ = .ok (p1, k))
    (hv : deserialize_fuel f1 mem p1 end_ (k :: .table acc :: st) =
      some (.ret rc p2 (v :: k :: .table acc :: st)))
    (hw : WireKey k = true)
    (hrest : table_loop f2 mem buffer len (cnt + 1) p2 end_ (.table (tableSet acc k v) :: st) =
      some o) :
    table_loop (max f1 f2 + 1) mem buffer len cnt pos end_ (.table acc :: st) = some o := by
  rw [table_loop_succ]
  have hcp : cnt < len ∧ pos < end_ := ⟨hc, hp⟩
  simp only [hcp, and_self, ↓reduceIte, hk]
  rw [deserialize_fuel_mono (Nat.le_max_left f1 f2) hv]
  simp only [lua_settable_wire hw]
  exact table_loop_mono (Nat.le_max_right f1 f2) hrest

mutual
theorem decode_ser : ∀ (v : LuaValue), Wire v = true →
    ∀ (mem : Mem) (pos end_ : Nat) (st : Stack), At mem pos (ser noCvt v) →
    pos + (ser noCvt v).length ≤ end_ →
    ∃ f, deserialize_fuel f mem pos end_ st =
      some (.ret 0 (pos + (ser noCvt v).length) (rebuild v :: st))
  | .nil, _, mem, pos, end_, st, hat, hend => by
      refine ⟨1, ?_⟩
      simp only [ser, List.length_cons, List.length_nil] at hat hend ⊢
      have h1 : ¬ pos + 1 > end_ := by omega
      rw [deserialize_fuel_succ]
      simp only [h1, ↓reduceIte, hat.1, rebuild]
  | .boolean b, _, mem, pos, end_, st, hat, hend => by
      refine ⟨1, ?_⟩
      simp only [ser, List.length_cons, List.length_nil] at hat hend ⊢
      have h1 : ¬ pos + 1 > end_ := by omega
      have h2 : ¬ pos + 1 + 1 > end_ := by omega
      rw [deserialize_fuel_succ]
      simp only [h1, ↓reduceIte, hat.1, hat.2.1, h2, rebuild]
      cases b <;> simp
  | .number d, hw, mem, pos, end_, st, hat, hend => by
      refine ⟨1, ?_⟩
      simp only [Wire, decide_eq_true_eq] at hw
      simp only [ser, List.length_cons, le64_length] at hat hend ⊢
      have h1 : ¬ pos + 1 > end_ := by omega
      have h2 : ¬ pos + 1 + 8 > end_ := by omega
      have h3 := read64_of_At mem (pos + 1) d hw hat.2
      rw [deserialize_fuel_succ]
      simp only [h1, ↓reduceIte, hat.1, h2, h3, rebuild]
      simp
  | .string s, hw, mem, pos, end_, st, hat, hend => by
      refine ⟨1, ?_⟩
      simp only [Wire, Bool.and_eq_true, decide_eq_true_eq] at hw
      simp only [ser, List.length_cons, List.length_append, le64_length] at hat hend ⊢
      have h1 : ¬ pos + 1 > end_ := by omega
      have h2 : ¬ pos + 1 + 8 > end_ := by omega
      obtain ⟨h3, h4⟩ := At_le64 hw.1 hat.2
      have h5 : ¬ pos + 1 + 8 + s.length > end_ := by omega
      have h6 := readBytes_of_At mem s (pos + 1 + 8) h4
      rw [deserialize_fuel_succ]
      simp only [h1, ↓reduceIte, hat.1, h2, h3, h5, h6, rebuild]
      simp
      omega
  | .other, hw, _, _, _, _, _, _ => by simp [Wire] at hw
  | .table es, hw, mem, pos, end_, st, hat, hend => by
      simp only [Wire, Bool.and_eq_true, decide_eq_true_eq] at hw
      simp only [ser, List.length_cons, List.length_append, le64_length] at hat hend ⊢
      have hlen := serEntries_length_le es hw.2
      have h1 : ¬ pos + 1 > end_ := by omega
      have h2 : ¬ pos + 1 + 8 > end_ := by omega
      obtain ⟨h3, h4⟩ := At_le64 hw.1 hat.2
      have h5 : ¬ pos + 1 + 8 + es.length > end_ := by omega
      have hexit := table_loop_exit 0 mem pos es.length (0 + es.length)
        (pos + 1 + 8 + (serEntries noCvt es).length) end_ (.table (rebuildEntries es []) :: st)
        (by omega)
      obtain ⟨f, hf⟩ := decode_entries es hw.2 mem pos es.length 0 (pos + 1 + 8) end_ [] st _
        h4 (by omega) (by omega) ⟨_, hexit⟩
      refine ⟨f + 1, ?_⟩
      rw [deserialize_fuel_succ]
      simp only [h1, ↓reduceIte, hat.1, h2, h3, h5, hf, rebuild]
      simp
      omega
theorem decode_entries : ∀ (es : List (LuaValue × LuaValue)), WireEntries es = true →
    ∀ (mem : Mem) (buffer len cnt pos end_ : Nat) (acc : List (LuaValue × LuaValue))
      (st : Stack) (o : Outcome),
    At mem pos (serEntries noCvt es) → pos + (serEntries noCvt es).length ≤ end_ →
    cnt + es.length ≤ len →
    (∃ f0, table_loop f0 mem buffer len (cnt + es.length)
      (pos + (serEntries noCvt es).length) end_ (.table (rebuildEntries es acc) :: st) = some o) →
    ∃ f, table_loop f mem buffer len cnt pos end_ (.table acc :: st) = some o
  | [], _, mem, buffer, len, cnt, pos, end_, acc, st, o, _, _, _, hrest => by
      simpa [serEntries, rebuildEntries] using hrest
  | (k, v) :: rest, hw, mem, buffer, len, cnt, pos, end_, acc, st, o, hat, hend, hcnt, hrest => by
      simp only [WireEntries, Bool.and_eq_true] at hw
      simp only [serEntries, List.length_append, At_append, List.length_cons] at hat hend hcnt hrest
      have hkl := key_length_le k hw.1.1
      have hk : read_key mem pos end_ = .ok (pos + (key noCvt k).length, k) :=
        read_key_of_At hw.1.1 hat.1 (by omega)
      obtain ⟨f1, hv⟩ := decode_ser v hw.1.2 mem (pos + (key noCvt k).length) end_
        (k :: .table acc :: st) hat.2.1 (by omega)
      obtain ⟨f2, h2⟩ := decode_entries rest hw.2 mem buffer len (cnt + 1)
        (pos + (key noCvt k).length + (ser noCvt v).length) end_
        (tableSet acc k (rebuild v)) st o hat.2.2 (by omega) (by omega)
        (by
          obtain ⟨f0, h0⟩ := hrest
          refine ⟨f0, ?_⟩
          rw [rebuildEntries] at h0
          rw [← h0]
          congr 1 <;> omega)
      exact ⟨_, table_loop_iter (by omega) (by omega) hk hv hw.1.1 h2⟩
end

/-! ## Round trip -/

theorem key_plain (cvt : Str2Number) (k : LuaValue) (h : coerced cvt k = false) :
    key cvt k = key noCvt k := by
  cases k <;> simp_all [key, lua_isnumber, lua_tonumber, coerced, noCvt]

mutual
theorem ser_plain (cvt : Str2Number) : ∀ (v : LuaValue), Plain cvt v = true →
    ser cvt v = ser noCvt v
  | .nil, _ => rfl
  | .boolean _, _ => rfl
  | .number _, _ => rfl
  | .string _, _ => rfl
  | .other, _ => rfl
  | .table es, h => by
      simp only [Plain] at h
      simp only [ser, serEntries_plain cvt es h]
theorem serEntries_plain (cvt : Str2Number) : ∀ (es : List (LuaValue × LuaValue)),
    PlainEntries cvt es = true → serEntries cvt es = serEntries noCvt es
  | [], _ => rfl
  | (k, v) :: rest, h => by
      simp only [PlainEntries, Bool.and_eq_true, Bool.not_eq_true'] at h
      simp only [serEntries, key_plain cvt k h.1.1, ser_plain cvt v h.1.2,
        serEntries_plain cvt rest h.2]
end

theorem tableSet_fresh (acc : List (LuaValue × LuaValue)) (k v : LuaValue)
    (hv : v.isNil = false) (hk : acc.any (fun e => rawEq e.1 k) = false) :
    tableSet acc k v = acc ++ [(k, v)] := by
  have h1 : v ≠ .nil := by intro h; subst h; simp [LuaValue.isNil] at hv
  simp only [tableSet, h1, ↓reduceIte, hk, Bool.false_eq_true]

mutual
theorem rebuild_luaTable : ∀ (v : LuaValue), LuaTable v = true → rebuild v = v
  | .nil, _ => rfl
  | .boolean _, _ => rfl
  | .number _, _ => rfl
  | .string _, _ => rfl
  | .other, _ => rfl
  | .table es, h => by
      simp only [LuaTable] at h
      simp only [rebuild, rebuildEntries_luaTable es h [] (by simp), List.nil_append]
theorem rebuildEntries_luaTable : ∀ (es : List (LuaValue × LuaValue)),
    LuaTableEntries es = true → ∀ (acc : List (LuaValue × LuaValue)),
    (∀ a ∈ acc, ∀ e ∈ es, rawEq a.1 e.1 = false) → rebuildEntries es acc = acc ++ es
  | [], _, acc, _ => by simp [rebuildEntries]
  | (k, v) :: rest, h, acc, hacc => by
      simp only [LuaTableEntries, Bool.and_eq_true, Bool.not_eq_true', List.all_eq_true] at h
      obtain ⟨⟨⟨hnil, hfresh⟩, hv⟩, hrest⟩ := h
      have hk : acc.any (fun e => rawEq e.1 k) = false := by
        rw [List.any_eq_false]
        intro a ha
        simp [hacc a ha (k, v) (List.mem_cons_self _ _)]
      rw [rebuildEntries, rebuild_luaTable v hv, tableSet_fresh acc k v hnil hk,
        rebuildEntries_luaTable rest hrest]
      · simp
      · intro a ha e he
        rcases List.mem_append.1 ha with ha | ha
        · exact hacc a ha e (List.mem_cons_of_mem _ he)
        · simp only [List.mem_singleton] at ha
          subst ha
          exact hfresh e he
end

theorem le64_lt (n : Nat) : ∀ b ∈ le64 n, b < 256 := by
  intro b hb
  simp only [le64, List.mem_cons, List.mem_singleton, List.not_mem_nil, or_false] at hb
  omega

theorem At_memcpy (bs : List Nat) : ∀ (m : Mem) (p : Nat), (∀ b ∈ bs, b < 256) →
    At (memcpy m p bs) p bs := by
  induction bs with
  | nil => intro m p _; trivial
  | cons b bs ih =>
    intro m p hb
    have hb0 : b < 256 := hb b (List.mem_cons_self _ _)
    have hbs : ∀ x ∈ bs, x < 256 := fun x hx => hb x (List.mem_cons_of_mem _ hx)
    refine ⟨?_, ih _ _ hbs⟩
    simp only [memcpy, Mem.read, memcpy_apply]
    have h : ¬ (p + 1 ≤ p ∧ p < p + 1 + bs.length) := by omega
    simp only [h, ↓reduceIte, Mem.write]
    omega

theorem key_lt (k : LuaValue) (hk : WireKey k = true) : ∀ b ∈ key noCvt k, b < 256 := by
  intro b hb
  cases k with
  | number d =>
    simp only [key, lua_isnumber, ↓reduceIte, lua_tonumber, List.mem_cons] at hb
    rcases hb with hb | hb
    · omega
    · exact le64_lt _ b hb
  | string s =>
    simp only [WireKey, Bool.and_eq_true, decide_eq_true_eq, List.all_eq_true] at hk
    simp only [key, lua_isnumber, noCvt, Option.isSome_none, Bool.false_eq_true, ↓reduceIte,
      lua_isstring, lua_tolstring, List.mem_cons, List.mem_append] at hb
    rcases hb with hb | hb | hb
    · omega
    · exact le64_lt _ b hb
    · exact hk.2 b hb
  | nil => simp [WireKey] at hk
  | boolean _ => simp [WireKey] at hk
  | table _ => simp [WireKey] at hk
  | other => simp [WireKey] at hk

mutual
theorem ser_lt : ∀ (v : LuaValue), Wire v = true → ∀ b ∈ ser noCvt v, b < 256
  | .nil, _, b, hb => by simp [ser] at hb; omega
  | .boolean x, _, b, hb => by
      cases x <;> simp [ser] at hb <;> omega
  | .number d, _, b, hb => by
      simp only [ser, List.mem_cons] at hb
      rcases hb with hb | hb
      · omega
      · exact le64_lt _ b hb
  | .string s, hw, b, hb => by
      simp only [Wire, Bool.and_eq_true, decide_eq_true_eq, List.all_eq_true] at hw
      simp only [ser, List.mem_cons, List.mem_append] at hb
      rcases hb with hb | hb | hb
      · omega
      · exact le64_lt _ b hb
      · exact hw.2 b hb
  | .other, hw, _, _ => by simp [Wire] at hw
  | .table es, hw, b, hb => by
      simp only [Wire, Bool.and_eq_true, decide_eq_true_eq] at hw
      simp only [ser, List.mem_cons, List.mem_append] at hb
      rcases hb with hb | hb | hb
      · omega
      · exact le64_lt _ b hb
      · exact serEntries_lt es hw.2 b hb
theorem serEntries_lt : ∀ (es : List (LuaValue × LuaValue)), WireEntries es = true →
    ∀ b ∈ serEntries noCvt es, b < 256
  | [], _, b, hb => by simp [serEntries] at hb
  | (k, v) :: rest, hw, b, hb => by
      simp only [WireEntries, Bool.and_eq_true] at hw
      simp only [serEntries, List.mem_append] at hb
      rcases hb with hb | hb | hb
      · exact key_lt k hw.1.1 b hb
      · exact ser_lt v hw.1.2 b hb
      · exact serEntries_lt rest hw.2 b hb
end

/-- Round trip for the tables whose string keys are not numerals: decoding
the bytes that `serialize_internal` produced gives back the value. -/
theorem roundtrip_plain (cvt : Str2Number) (v : LuaValue) (mem : Mem) (buffer end_ : Nat)
    (hw : Wire v = true) (ht : LuaTable v = true) (hp : Plain cvt v = true)
    (hrc : (serialize_internal cvt v mem buffer end_).rc = 0) :
    deserialize_internal (serialize_internal cvt v mem buffer end_).mem buffer
      (serialize_internal cvt v mem buffer end_).buffer =
      .ret 0 (serialize_internal cvt v mem buffer end_).buffer [v] := by
  rw [serialize_internal_eq cvt v mem buffer end_ hrc, ser_plain cvt v hp]
  obtain ⟨f, hf⟩ := decode_ser v hw (memcpy mem buffer (ser noCvt v)) buffer
    (buffer + (ser noCvt v).length) [] (At_memcpy _ _ _ (ser_lt v hw)) (Nat.le_refl _)
  rw [rebuild_luaTable v ht] at hf
  exact deserialize_internal_of_fuel hf

/-! ## The claims -/

/-- C1 (round trip), evaluated on the table `{ ["10"] = true }`: when Lua
converts the string "10" to the number 10, `serialize_internal` succeeds and
`deserialize_internal` decodes the bytes it produced without error, yet the
decoded table has the number key 10 and not the string key "10", so that
it differs from the table that was encoded. -/
theorem roundtrip_numeral_key (cvt : Str2Number) (mem : Mem)
    (h : cvt [49, 48] = some 4621819117588971520) :
    (serialize_internal cvt (.table [(.string [49, 48], .boolean true)]) mem 0 1024).rc = 0 ∧
    deserialize_internal
      (serialize_internal cvt (.table [(.string [49, 48], .boolean true)]) mem 0 1024).mem 0
      (serialize_internal cvt (.table [(.string [49, 48], .boolean true)]) mem 0 1024).buffer =
      .ret 0 20 [.table [(.number 4621819117588971520, .boolean true)]] ∧
    LuaValue.table [(.number 4621819117588971520, .boolean true)] ≠
      LuaValue.table [(.string [49, 48], .boolean true)] := by
  have hrc : (serialize_internal cvt (.table [(.string [49, 48], .boolean true)]) mem 0 1024).rc
      = 0 := by
    simp [serialize_internal, serialize_entries, lua_isnumber, h]
  have hser : ser cvt (.table [(.string [49, 48], .boolean true)]) =
      ser noCvt (.table [(.number 4621819117588971520, .boolean true)]) := by
    simp [ser, serEntries, key, lua_isnumber, lua_tonumber, h]
  refine ⟨hrc, ?_, by decide⟩
  rw [serialize_internal_eq cvt _ mem 0 1024 hrc, hser]
  obtain ⟨f, hf⟩ := decode_ser (.table [(.number 4621819117588971520, .boolean true)])
    (by decide) (memcpy mem 0 (ser noCvt (.table [(.number 4621819117588971520, .boolean true)])))
    0 (0 + (ser noCvt (.table [(.number 4621819117588971520, .boolean true)])).length) []
    (At_memcpy _ _ _ (ser_lt _ (by decide))) (Nat.le_refl _)
  exact deserialize_internal_of_fuel hf

theorem roundtrip_numeral_key_witness :
    (fun s => if s = [49, 48] then some 4621819117588971520 else none : Str2Number) [49, 48]
      = some 4621819117588971520 ∧
    deserialize_internal
      (serialize_internal (fun s => if s = [49, 48] then some 4621819117588971520 else none)
        (.table [(.string [49, 48], .boolean true)]) (fun _ => 0) 0 1024).mem 0
      (serialize_internal (fun s => if s = [49, 48] then some 4621819117588971520 else none)
        (.table [(.string [49, 48], .boolean true)]) (fun _ => 0) 0 1024).buffer =
      .ret 0 20 [.table [(.number 4621819117588971520, .boolean true)]] :=
  ⟨by decide, (roundtrip_numeral_key _ (fun _ => 0) (by decide)).2.1⟩

theorem At_memcpy_mod (bs : List Nat) : ∀ (m : Mem) (p : Nat),
    At (memcpy m p bs) p (bs.map (fun b => b % 256)) := by
  induction bs with
  | nil => intro m p; trivial
  | cons b bs ih =>
    intro m p
    refine ⟨?_, ih _ _⟩
    simp only [memcpy, Mem.read, memcpy_apply]
    have h : ¬ (p + 1 ≤ p ∧ p < p + 1 + bs.length) := by omega
    simp only [h, ↓reduceIte, Mem.write]
    omega

/-- C4 (capacity boundary, failure side), evaluated on the empty table and on
a table whose last value is the empty table: the exact encoded sizes are 9
and 27, yet with capacity 8 and 26 `serialize_internal` returns 0, not -1;
the count field of the empty table is never checked against `end`, and its
last byte is written at address 8, outside the buffer of 8 bytes. -/
theorem serialize_internal_empty_table_overrun (cvt : Str2Number) (mem : Mem) :
    encodedSize cvt (.table []) = 9 ∧
    (serialize_internal cvt (.table []) mem 0 8).rc = 0 ∧
    (serialize_internal cvt (.table []) mem 0 8).buffer = 9 ∧
    (serialize_internal cvt (.table []) (fun _ => 255) 0 8).mem 8 = 0 ∧
    encodedSize cvt (.table [(.number 4619567317775286272, .table [])]) = 27 ∧
    (serialize_internal cvt (.table [(.number 4619567317775286272, .table [])]) mem 0 26).rc
      = 0 :=
  ⟨rfl, rfl, rfl, by simp [serialize_internal, serialize_entries, memcpy, le64, Mem.write],
   rfl, rfl⟩

/-- C6 (nested decode errors propagate), evaluated on three inputs, each a
table with one entry under the key 1.0.  When the entry value is a table with
the unknown key tag 7 (28 bytes) the nested call returns -9, and when it is
a table whose key is cut off (29 bytes) the nested call returns -1; both times
the enclosing call does not look at that return code, stores the table the
nested call left on the stack and returns 0.  When the entry value has the
unknown tag 9 (19 bytes) the nested call pushes nothing and `lua_settable`
works on a shifted stack. -/
theorem nested_error_swallowed :
    deserialize_fuel 2 (memOf [4, 1, 0, 0, 0, 0, 0, 0, 0, 2, 0, 0, 0, 0, 0, 0, 240, 63,
        4, 1, 0, 0, 0, 0, 0, 0, 0, 7]) 18 28 [.number 4607182418800017408, .table []] =
      some (.ret (-9) 18 [.table [], .number 4607182418800017408, .table []]) ∧
    deserialize_internal (memOf [4, 1, 0, 0, 0, 0, 0, 0, 0, 2, 0, 0, 0, 0, 0, 0, 240, 63,
        4, 1, 0, 0, 0, 0, 0, 0, 0, 7]) 0 28 =
      .ret 0 18 [.table [(.number 4607182418800017408, .table [])]] ∧
    deserialize_lua [4, 1, 0, 0, 0, 0, 0, 0, 0, 2, 0, 0, 0, 0, 0, 0, 240, 63,
        4, 1, 0, 0, 0, 0, 0, 0, 0, 7] =
      .value (.table [(.number 4607182418800017408, .table [])]) ∧
    deserialize_fuel 2 (memOf [4, 1, 0, 0, 0, 0, 0, 0, 0, 2, 0, 0, 0, 0, 0, 0, 240, 63,
        4, 1, 0, 0, 0, 0, 0, 0, 0, 2, 0]) 18 29 [.number 4607182418800017408, .table []] =
      some (.ret (-1) 18 [.table [], .number 4607182418800017408, .table []]) ∧
    deserialize_internal (memOf [4, 1, 0, 0, 0, 0, 0, 0, 0, 2, 0, 0, 0, 0, 0, 0, 240, 63,
        4, 1, 0, 0, 0, 0, 0, 0, 0, 2, 0]) 0 29 =
      .ret 0 18 [.table [(.number 4607182418800017408, .table [])]] ∧
    deserialize_fuel 1 (memOf [4, 1, 0, 0, 0, 0, 0, 0, 0, 2, 0, 0, 0, 0, 0, 0, 240, 63, 9])
        18 19 [.number 4607182418800017408, .table []] =
      some (.ret (-9) 18 [.number 4607182418800017408, .table []]) ∧
    deserialize_internal
        (memOf [4, 1, 0, 0, 0, 0, 0, 0, 0, 2, 0, 0, 0, 0, 0, 0, 240, 63, 9]) 0 19 = .fault ∧
    deserialize_lua [4, 1, 0, 0, 0, 0, 0, 0, 0, 2, 0, 0, 0, 0, 0, 0, 240, 63, 9] =
      .api_error := by
  decide

/-- A tag byte above 4 reaches the default case of the outer switch. -/
theorem deserialize_internal_unknown_tag (mem : Mem) (buffer end_ : Nat) (hne : buffer < end_)
    (htag : 4 < mem.read buffer) : deserialize_internal mem buffer end_ = .ret (-9) buffer [] := by
  apply deserialize_internal_of_fuel (f := 1)
  rw [deserialize_fuel_succ]
  have h1 : ¬ buffer + 1 > end_ := by omega
  have h2 : mem.read buffer ≠ 0 := by omega
  have h3 : mem.read buffer ≠ 1 := by omega
  have h4 : mem.read buffer ≠ 2 := by omega
  have h5 : mem.read buffer ≠ 3 := by omega
  have h6 : mem.read buffer ≠ 4 := by omega
  simp only [h1, h2, h3, h4, h5, h6, ↓reduceIte]

/-- C7 (invalid first tag): on a non-empty buffer whose first byte is not one
of the tag codes 0..4, `deserialize_internal` returns -9 with the cursor where
it was, and the byte offset that `deserialize_lua` reports is 0. -/
theorem invalid_first_tag (input : List Nat) (hne : input ≠ [])
    (htag : 4 < (memOf input).read 0) :
    deserialize_internal (memOf input) 0 input.length = .ret (-9) 0 [] ∧
    deserialize_lua input = .invalid_type_at_byte 0 := by
  have hlen : 0 < input.length := List.length_pos.2 hne
  have h := deserialize_internal_unknown_tag (memOf input) 0 input.length hlen htag
  refine ⟨h, ?_⟩
  simp only [deserialize_lua, Nat.zero_add, h]
  simp

theorem invalid_first_tag_witness :
    deserialize_internal (memOf [5, 0, 0]) 0 3 = .ret (-9) 0 [] ∧
    deserialize_lua [5, 0, 0] = .invalid_type_at_byte 0 :=
  invalid_first_tag [5, 0, 0] (by decide) (by decide)

/-- C9 (failing byte offset), evaluated on the 10 bytes of a table whose first
entry has the unknown key tag 7 at byte 9: `deserialize_internal` returns -9
and leaves the cursor at the start, so that `deserialize_lua` reports byte 0,
not byte 9. -/
theorem invalid_key_tag_offset :
    (memOf [4, 1, 0, 0, 0, 0, 0, 0, 0, 7]).read 9 = 7 ∧
    deserialize_internal (memOf [4, 1, 0, 0, 0, 0, 0, 0, 0, 7]) 0 10 =
      .ret (-9) 0 [.table []] ∧
    deserialize_lua [4, 1, 0, 0, 0, 0, 0, 0, 0, 7] = .invalid_type_at_byte 0 := by
  decide

theorem lua_isstring_of_isnumber (cvt : Str2Number) (k : LuaValue)
    (h : lua_isnumber cvt k = true) : lua_isstring k = true := by
  cases k <;> simp_all [lua_isnumber, lua_isstring]

mutual
theorem emittedBefore_encodable (cvt : Str2Number) : ∀ (v : LuaValue), Encodable v = true →
    emittedBefore cvt v = encodedSize cvt v
  | .nil, _ => rfl
  | .boolean _, _ => rfl
  | .number _, _ => rfl
  | .string _, _ => rfl
  | .other, _ => rfl
  | .table es, h => by
      simp only [Encodable] at h
      simp only [emittedBefore, encodedSize, emittedBeforeEntries_encodable cvt es h]
theorem emittedBeforeEntries_encodable (cvt : Str2Number) :
    ∀ (es : List (LuaValue × LuaValue)), EncodableEntries es = true →
    emittedBeforeEntries cvt es = entriesSize cvt es
  | [], _ => rfl
  | (k, v) :: rest, h => by
      simp only [EncodableEntries, Bool.and_eq_true] at h
      simp only [emittedBeforeEntries, entriesSize, h.1.1, h.1.2, ↓reduceIte,
        emittedBefore_encodable cvt v h.1.2, emittedBeforeEntries_encodable cvt rest h.2]
end

mutual
theorem serialize_internal_unsupported (cvt : Str2Number) :
    ∀ (v : LuaValue), Encodable v = false → ∀ (mem : Mem) (buffer end_ : Nat),
    (serialize_internal cvt v mem buffer end_).rc ≠ 0 ∧
    (buffer + emittedBefore cvt v ≤ end_ → (serialize_internal cvt v mem buffer end_).rc = -9)
  | .nil, h, _, _, _ => by simp [Encodable] at h
  | .boolean _, h, _, _, _ => by simp [Encodable] at h
  | .number _, h, _, _, _ => by simp [Encodable] at h
  | .string _, h, _, _, _ => by simp [Encodable] at h
  | .other, _, mem, buffer, end_ => by simp [serialize_internal]
  | .table es, h, mem, buffer, end_ => by
      simp only [Encodable] at h
      have ih := serialize_entries_unsupported cvt es h (mem.write buffer 4) (buffer + 1 + 8) end_ 0
      simp only [serialize_internal, emittedBefore]
      by_cases c1 : buffer + 1 > end_
      · simp only [c1, ↓reduceIte]
        exact ⟨by decide, fun hr => by omega⟩
      · simp only [c1, ↓reduceIte, ne_eq, ih.1, not_false_eq_true]
        exact ⟨trivial, fun hr => ih.2 (by omega)⟩
theorem serialize_entries_unsupported (cvt : Str2Number) :
    ∀ (es : List (LuaValue × LuaValue)), EncodableEntries es = false →
    ∀ (mem : Mem) (pos end_ len : Nat),
    (serialize_entries cvt es mem pos end_ len).rc ≠ 0 ∧
    (pos + emittedBeforeEntries cvt es ≤ end_ →
      (serialize_entries cvt es mem pos end_ len).rc = -9)
  | [], h, _, _, _, _ => by simp [EncodableEntries] at h
  | (k, v) :: rest, h, mem, pos, end_, len => by
      simp only [serialize_entries, emittedBeforeEntries, keySize]
      cases hn : lua_isnumber cvt k
      · simp only [Bool.false_eq_true, ↓reduceIte]
        cases hs : lua_isstring k
        · simp
        · simp only [↓reduceIte]
          by_cases c1 : pos + 1 + 8 + (lua_tolstring k).length > end_
          · simp only [c1, ↓reduceIte]
            exact ⟨by decide, fun hr => by omega⟩
          · simp only [c1, ↓reduceIte]
            cases hv : Encodable v
            · have ih := serialize_internal_unsupported cvt v hv
                (memcpy (memcpy (mem.write pos 3) (pos + 1) (le64 (lua_tolstring k).length))
                  (pos + 1 + 8) (lua_tolstring k))
                (pos + 1 + 8 + (lua_tolstring k).length) end_
              simp only [ne_eq, ih.1, not_false_eq_true, ↓reduceIte, Bool.false_eq_true,
                Nat.add_zero]
              exact ⟨trivial, fun hr => ih.2 (by omega)⟩
            · have hrest : EncodableEntries rest = false := by
                simpa [EncodableEntries, hs, hv] using h
              simp only [↓reduceIte]
              by_cases c2 : (serialize_internal cvt v
                  (memcpy (memcpy (mem.write pos 3) (pos + 1) (le64 (lua_tolstring k).length))
                    (pos + 1 + 8) (lua_tolstring k))
                  (pos + 1 + 8 + (lua_tolstring k).length) end_).rc = 0
              · have he := serialize_internal_eq cvt v _ _ _ c2
                simp only [ne_eq, c2, not_true_eq_false, ↓reduceIte]
                rw [he]
                have ih := serialize_entries_unsupported cvt rest hrest
                  (memcpy (memcpy (memcpy (mem.write pos 3) (pos + 1)
                    (le64 (lua_tolstring k).length)) (pos + 1 + 8) (lua_tolstring k))
                    (pos + 1 + 8 + (lua_tolstring k).length) (ser cvt v))
                  (pos + 1 + 8 + (lua_tolstring k).length + (ser cvt v).length) end_ (len + 1)
                refine ⟨ih.1, fun hr => ih.2 ?_⟩
                rw [ser_length cvt v hv, ← emittedBefore_encodable cvt v hv]
                omega
              · simp only [ne_eq, c2, not_false_eq_true, ↓reduceIte]
                refine ⟨trivial, fun hr => absurd ?_ c2⟩
                apply serialize_internal_rc cvt v _ _ _ hv
                rw [← emittedBefore_encodable cvt v hv]
                omega
      · have hs := lua_isstring_of_isnumber cvt k hn
        simp only [↓reduceIte, hs]
        by_cases c1 : pos + 1 + 8 > end_
        · simp only [c1, ↓reduceIte]
          exact ⟨by decide, fun hr => by omega⟩
        · simp only [c1, ↓reduceIte]
          cases hv : Encodable v
          · have ih := serialize_internal_unsupported cvt v hv
              (memcpy (mem.write pos 2) (pos + 1) (le64 (lua_tonumber cvt k))) (pos + 1 + 8) end_
            simp only [ne_eq, ih.1, not_false_eq_true, ↓reduceIte, Bool.false_eq_true,
              Nat.add_zero]
            exact ⟨trivial, fun hr => ih.2 (by omega)⟩
          · have hrest : EncodableEntries rest = false := by
              simpa [EncodableEntries, hs, hv] using h
            simp only [↓reduceIte]
            by_cases c2 : (serialize_internal cvt v
                (memcpy (mem.write pos 2) (pos + 1) (le64 (lua_tonumber cvt k)))
                (pos + 1 + 8) end_).rc = 0
            · have he := serialize_internal_eq cvt v _ _ _ c2
              simp only [ne_eq, c2, not_true_eq_false, ↓reduceIte]
              rw [he]
              have ih := serialize_entries_unsupported cvt rest hrest
                (memcpy (memcpy (mem.write pos 2) (pos + 1) (le64 (lua_tonumber cvt k)))
                  (pos + 1 + 8) (ser cvt v))
                (pos + 1 + 8 + (ser cvt v).length) end_ (len + 1)
              refine ⟨ih.1, fun hr => ih.2 ?_⟩
              rw [ser_length cvt v hv, ← emittedBefore_encodable cvt v hv]
              omega
            · simp only [ne_eq, c2, not_false_eq_true, ↓reduceIte]
              refine ⟨trivial, fun hr => absurd ?_ c2⟩
              apply serialize_internal_rc cvt v _ _ _ hv
              rw [← emittedBefore_encodable cvt v hv]
              omega
end

mutual
theorem not_encodable_of_hasBadKey : ∀ (v : LuaValue), hasBadKey v = true → Encodable v = false
  | .nil, h => by simp [hasBadKey] at h
  | .boolean _, h => by simp [hasBadKey] at h
  | .number _, h => by simp [hasBadKey] at h
  | .string _, h => by simp [hasBadKey] at h
  | .other, _ => rfl
  | .table es, h => by
      simp only [hasBadKey] at h
      simp only [Encodable, not_encodableEntries_of_hasBadKey es h]
theorem not_encodableEntries_of_hasBadKey : ∀ (es : List (LuaValue × LuaValue)),
    hasBadKeyEntries es = true → EncodableEntries es = false
  | [], h => by simp [hasBadKeyEntries] at h
  | (k, v) :: rest, h => by
      simp only [hasBadKeyEntries, Bool.or_eq_true] at h
      simp only [EncodableEntries, Bool.and_eq_false_iff]
      rcases h with (h | h) | h
      · left; left
        cases k <;> simp_all [badKey, lua_isstring]
      · left; right
        exact not_encodable_of_hasBadKey v h
      · right
        exact not_encodableEntries_of_hasBadKey rest h
end

/-- C8 (unsupported key): a table that contains, at any nesting depth, an
entry whose key is a boolean or a table is never encoded with return code 0,
whatever the buffer, and the return code is -9 whenever the buffer has room
for everything that is emitted before the first key or value that the format
cannot represent. -/
theorem serialize_internal_bad_key (cvt : Str2Number) (v : LuaValue) (mem : Mem)
    (buffer end_ : Nat) (h : hasBadKey v = true) :
    (serialize_internal cvt v mem buffer end_).rc ≠ 0 ∧
    (buffer + emittedBefore cvt v ≤ end_ → (serialize_internal cvt v mem buffer end_).rc = -9) :=
  serialize_internal_unsupported cvt v (not_encodable_of_hasBadKey v h) mem buffer end_

theorem serialize_internal_bad_key_witness :
    hasBadKey (.table [(.number 4619567317775286272, .table [(.boolean true, .nil)])]) = true ∧
    emittedBefore noCvt (.table [(.number 4619567317775286272, .table [(.boolean true, .nil)])]) = 27 ∧
    (serialize_internal noCvt (.table [(.number 4619567317775286272, .table [(.boolean true, .nil)])])
      (fun _ => 0) 0 27).rc = -9 :=
  ⟨by decide, by decide,
   (serialize_internal_bad_key noCvt (.table [(.number 4619567317775286272, .table [(.boolean true, .nil)])])
      (fun _ => 0) 0 27 (by decide)).2 (by decide)⟩

/-! ## Tables assembled with `lua_settable` -/

theorem numEq_symm (a b : Nat) : numEq a b = numEq b a := by
  have h : (a == b) = (b == a) := by
    rw [Bool.eq_iff_iff]; simp only [beq_iff_eq]; exact eq_comm
  simp only [numEq, h]
  cases isNaN a <;> cases isNaN b <;> simp [Bool.and_comm]

theorem numEq_congr {a b : Nat} (h : numEq a b = true) (c : Nat) : numEq c a = numEq c b := by
  simp only [numEq, Bool.and_eq_true, Bool.not_eq_true', Bool.or_eq_true, beq_iff_eq] at h
  obtain ⟨⟨ha, hb⟩, hab⟩ := h
  simp only [numEq, ha, hb, Bool.not_false, Bool.and_true]
  congr 1
  rw [Bool.eq_iff_iff]
  simp only [Bool.or_eq_true, beq_iff_eq, Bool.and_eq_true]
  omega

theorem rawEq_symm (a b : LuaValue) : rawEq a b = rawEq b a := by
  cases a <;> cases b <;> simp only [rawEq]
  case number.number x y => exact numEq_symm x y
  case string.string x y => rw [Bool.eq_iff_iff]; simp only [beq_iff_eq]; exact eq_comm
  case boolean.boolean x y => cases x <;> cases y <;> rfl

theorem rawEq_congr {a b : LuaValue} (h : rawEq a b = true) (c : LuaValue) :
    rawEq c a = rawEq c b := by
  cases a <;> cases b <;> simp [rawEq] at h
  case number.number x y =>
    cases c <;> simp [rawEq]
    exact numEq_congr h _
  case string.string x y => subst h; rfl
  case boolean.boolean x y => subst h; rfl

theorem rawEq_refl {k : LuaValue} (h : WireKey k = true) : rawEq k k = true := by
  cases k <;> simp [WireKey] at h <;> simp [rawEq, numEq, h]

theorem rawEq_of_both {e k k2 : LuaValue} (h1 : rawEq e k = true) (h2 : rawEq e k2 = true) :
    rawEq k k2 = true := by
  rw [rawEq_symm k k2, ← rawEq_congr h1 k2, rawEq_symm]
  exact h2

theorem tableGet_cons (a x : LuaValue) (rest : List (LuaValue × LuaValue)) (k2 : LuaValue) :
    tableGet ((a, x) :: rest) k2 = if rawEq a k2 then x else tableGet rest k2 := rfl

theorem tableGet_filter (k k2 : LuaValue) : ∀ (acc : List (LuaValue × LuaValue)),
    tableGet (acc.filter (fun e => !rawEq e.1 k)) k2 =
      if rawEq k k2 then .nil else tableGet acc k2
  | [] => by simp [tableGet]
  | (a, x) :: acc => by
      have ih := tableGet_filter k k2 acc
      have e1 : rawEq k k2 = true → rawEq a k = rawEq a k2 := fun h => rawEq_congr h a
      have e2 : rawEq a k = true → rawEq a k2 = true → rawEq k k2 = true := rawEq_of_both
      simp only [List.filter_cons]
      cases h1 : rawEq a k <;> cases h2 : rawEq a k2 <;> cases h3 : rawEq k k2 <;>
        simp_all [tableGet]

theorem tableGet_map (k k2 v : LuaValue) : ∀ (acc : List (LuaValue × LuaValue)),
    tableGet (acc.map (fun e => if rawEq e.1 k then (e.1, v) else e)) k2 =
      if rawEq k k2 then (if acc.any (fun e => rawEq e.1 k) then v else .nil)
      else tableGet acc k2
  | [] => by simp [tableGet]
  | (a, x) :: acc => by
      have ih := tableGet_map k k2 v acc
      have e1 : rawEq k k2 = true → rawEq a k = rawEq a k2 := fun h => rawEq_congr h a
      have e2 : rawEq a k = true → rawEq a k2 = true → rawEq k k2 = true := rawEq_of_both
      rcases Bool.eq_false_or_eq_true (rawEq a k) with h1 | h1 <;>
        rcases Bool.eq_false_or_eq_true (rawEq a k2) with h2 | h2 <;>
        rcases Bool.eq_false_or_eq_true (rawEq k k2) with h3 | h3 <;>
        simp only [List.map_cons, List.any_cons, h1, ↓reduceIte, Bool.false_eq_true] <;>
        simp only [tableGet_cons, h2, h3, ih, Bool.true_or, Bool.false_or, ↓reduceIte,
          Bool.false_eq_true] <;>
        simp_all

theorem tableGet_append (k k2 v : LuaValue) : ∀ (acc : List (LuaValue × LuaValue)),
    acc.any (fun e => rawEq e.1 k) = false →
    tableGet (acc ++ [(k, v)]) k2 = if rawEq k k2 then v else tableGet acc k2
  | [], _ => by simp [tableGet]
  | (a, x) :: acc, h => by
      simp only [List.any_cons, Bool.or_eq_false_iff] at h
      have ih := tableGet_append k k2 v acc h.2
      have e1 : rawEq k k2 = true → rawEq a k = rawEq a k2 := fun h => rawEq_congr h a
      have h1 := h.1
      simp only [List.cons_append, tableGet]
      cases h2 : rawEq a k2 <;> cases h3 : rawEq k k2 <;> simp_all

/-- Reading a table after the assignment `t[k] = v`. -/
theorem tableGet_tableSet (acc : List (LuaValue × LuaValue)) (k v k2 : LuaValue) :
    tableGet (tableSet acc k v) k2 = if rawEq k k2 then v else tableGet acc k2 := by
  simp only [tableSet]
  by_cases hv : v = .nil
  · simp only [hv, ↓reduceIte, tableGet_filter]
  · simp only [hv, ↓reduceIte]
    cases hany : acc.any (fun e => rawEq e.1 k)
    · simp only [Bool.false_eq_true, ↓reduceIte, tableGet_append k k2 v acc hany]
    · simp only [↓reduceIte, tableGet_map, hany]

theorem keyCount_cons (a x : LuaValue) (acc : List (LuaValue × LuaValue)) (k2 : LuaValue) :
    keyCount ((a, x) :: acc) k2 = (if rawEq a k2 then 1 else 0) + keyCount acc k2 := by
  simp only [keyCount, List.filter_cons]
  cases rawEq a k2 <;> simp
  omega

theorem keyCount_filter (k k2 : LuaValue) : ∀ (acc : List (LuaValue × LuaValue)),
    keyCount (acc.filter (fun e => !rawEq e.1 k)) k2 =
      if rawEq k k2 then 0 else keyCount acc k2
  | [] => by simp [keyCount]
  | (a, x) :: acc => by
      have ih := keyCount_filter k k2 acc
      have e1 : rawEq k k2 = true → rawEq a k = rawEq a k2 := fun h => rawEq_congr h a
      have e2 : rawEq a k = true → rawEq a k2 = true → rawEq k k2 = true := rawEq_of_both
      rw [List.filter_cons, keyCount_cons]
      rcases Bool.eq_false_or_eq_true (rawEq a k) with h1 | h1 <;>
        rcases Bool.eq_false_or_eq_true (rawEq a k2) with h2 | h2 <;>
        rcases Bool.eq_false_or_eq_true (rawEq k k2) with h3 | h3 <;>
        simp only [h1, h2, h3, Bool.not_true, Bool.not_false, Bool.false_eq_true, ↓reduceIte,
          keyCount_cons, ih, Nat.zero_add] <;>
        simp_all

theorem keyCount_map (k k2 v : LuaValue) : ∀ (acc : List (LuaValue × LuaValue)),
    keyCount (acc.map (fun e => if rawEq e.1 k then (e.1, v) else e)) k2 = keyCount acc k2
  | [] => by simp [keyCount]
  | (a, x) :: acc => by
      have ih := keyCount_map k k2 v acc
      rw [List.map_cons, keyCount_cons]
      rcases Bool.eq_false_or_eq_true (rawEq a k) with h1 | h1 <;>
        simp only [h1, Bool.false_eq_true, ↓reduceIte, keyCount_cons, ih]

theorem keyCount_append (acc : List (LuaValue × LuaValue)) (k k2 v : LuaValue) :
    keyCount (acc ++ [(k, v)]) k2 = keyCount acc k2 + if rawEq k k2 then 1 else 0 := by
  simp only [keyCount, List.filter_append, List.length_append, List.filter_cons, List.filter_nil]
  cases rawEq k k2 <;> simp

theorem keyCount_congr {k k2 : LuaValue} (h : rawEq k k2 = true)
    (acc : List (LuaValue × LuaValue)) : keyCount acc k = keyCount acc k2 := by
  have : (fun e : LuaValue × LuaValue => rawEq e.1 k) = (fun e => rawEq e.1 k2) := by
    funext e; exact rawEq_congr h e.1
  simp only [keyCount, this]

theorem keyCount_pos_iff (acc : List (LuaValue × LuaValue)) (k : LuaValue) :
    acc.any (fun e => rawEq e.1 k) = true ↔ 0 < keyCount acc k := by
  simp only [keyCount, List.length_pos, List.any_eq_true]
  constructor
  · rintro ⟨e, he, h⟩ hnil
    have : e ∈ acc.filter (fun e => rawEq e.1 k) := List.mem_filter.2 ⟨he, h⟩
    rw [hnil] at this
    simp at this
  · intro h
    obtain ⟨e, he⟩ := List.exists_mem_of_ne_nil _ h
    exact ⟨e, (List.mem_filter.1 he).1, (List.mem_filter.1 he).2⟩

/-- Counting the entries of a key after the assignment `t[k] = v`, in a table
that holds no key twice. -/
theorem keyCount_tableSet (acc : List (LuaValue × LuaValue)) (k v k2 : LuaValue)
    (hinv : keyCount acc k ≤ 1) :
    keyCount (tableSet acc k v) k2 =
      if rawEq k k2 then (if v = .nil then 0 else 1) else keyCount acc k2 := by
  simp only [tableSet]
  by_cases hv : v = .nil
  · simp only [hv, ↓reduceIte, keyCount_filter]
  · simp only [hv, ↓reduceIte]
    cases hany : acc.any (fun e => rawEq e.1 k)
    · simp only [Bool.false_eq_true, ↓reduceIte, keyCount_append]
      cases hk : rawEq k k2
      · simp
      · have h0 : ¬ 0 < keyCount acc k := by
          rw [← keyCount_pos_iff, hany]; simp
        have := keyCount_congr hk acc
        simp only [↓reduceIte]
        omega
    · simp only [↓reduceIte, keyCount_map]
      cases hk : rawEq k k2
      · simp
      · have h0 : 0 < keyCount acc k := (keyCount_pos_iff acc k).1 hany
        have := keyCount_congr hk acc
        simp only [↓reduceIte]
        omega

theorem rebuild_eq_nil (x : LuaValue) : rebuild x = .nil ↔ x = .nil := by
  cases x <;> simp [rebuild]

theorem rebuildEntries_spec : ∀ (es acc : List (LuaValue × LuaValue)),
    (∀ k, keyCount acc k ≤ 1) → ∀ k2,
    tableGet (rebuildEntries es acc) k2 =
      (match lastValue es k2 with
       | some x => rebuild x
       | none => tableGet acc k2) ∧
    keyCount (rebuildEntries es acc) k2 =
      (match lastValue es k2 with
       | some x => if x = .nil then 0 else 1
       | none => keyCount acc k2) ∧
    ∀ k, keyCount (rebuildEntries es acc) k ≤ 1 := by
  intro es
  induction es with
  | nil =>
    intro acc hinv k2
    simp only [rebuildEntries, lastValue]
    exact ⟨trivial, trivial, hinv⟩
  | cons e rest ih =>
    obtain ⟨k, v⟩ := e
    intro acc hinv k2
    have hinv2 : ∀ k3, keyCount (tableSet acc k (rebuild v)) k3 ≤ 1 := by
      intro k3
      rw [keyCount_tableSet acc k (rebuild v) k3 (hinv k)]
      have := hinv k3
      split
      · split <;> omega
      · exact this
    obtain ⟨h1, h2, h3⟩ := ih (tableSet acc k (rebuild v)) hinv2 k2
    rw [rebuildEntries]
    refine ⟨?_, ?_, h3⟩
    · rw [h1, lastValue]
      cases lastValue rest k2 with
      | some x => rfl
      | none =>
        simp only [tableGet_tableSet]
        cases rawEq k k2 <;> simp
    · rw [h2, lastValue]
      cases lastValue rest k2 with
      | some x => rfl
      | none =>
        simp only [keyCount_tableSet acc k (rebuild v) k2 (hinv k), rebuild_eq_nil]
        cases rawEq k k2 <;> simp

theorem lastValue_isSome : ∀ (es : List (LuaValue × LuaValue)), WireEntries es = true →
    ∀ k v, (k, v) ∈ es → ∃ x, lastValue es k = some x
  | [], _, k, v, h => by simp at h
  | (k1, v1) :: rest, hw, k, v, h => by
      simp only [WireEntries, Bool.and_eq_true] at hw
      rw [lastValue]
      cases hl : lastValue rest k with
      | some x => exact ⟨x, rfl⟩
      | none =>
        rcases List.mem_cons.1 h with h | h
        · simp only [Prod.mk.injEq] at h
          rw [← h.1, rawEq_refl (h.1 ▸ hw.1.1)]
          exact ⟨_, rfl⟩
        · obtain ⟨x, hx⟩ := lastValue_isSome rest hw.2 k v h
          rw [hx] at hl
          cases hl

/-- C10 (duplicate keys on decode), amended: on a well-formed table encoding
whose keys are not NaN, `deserialize_internal` returns 0 with the cursor behind
the encoding and the table assembled by `lua_settable`. For every key of an
entry, the table maps the key to the decoded value of the last entry with that
key, and it holds exactly one entry for the key when that value is not nil and
no entry when it is nil. -/
theorem decode_duplicate_keys (es : List (LuaValue × LuaValue)) (mem : Mem) (buffer end_ : Nat)
    (hw : Wire (.table es) = true) (hat : At mem buffer (ser noCvt (.table es)))
    (hend : buffer + (ser noCvt (.table es)).length ≤ end_) :
    deserialize_internal mem buffer end_ =
      .ret 0 (buffer + (ser noCvt (.table es)).length) [.table (rebuildEntries es [])] ∧
    ∀ k v, (k, v) ∈ es → ∃ x, lastValue es k = some x ∧
      tableGet (rebuildEntries es []) k = rebuild x ∧
      keyCount (rebuildEntries es []) k = if x = .nil then 0 else 1 := by
  constructor
  · obtain ⟨f, hf⟩ := decode_ser (.table es) hw mem buffer end_ [] hat hend
    exact deserialize_internal_of_fuel hf
  · intro k v hkv
    simp only [Wire, Bool.and_eq_true, decide_eq_true_eq] at hw
    obtain ⟨x, hx⟩ := lastValue_isSome es hw.2 k v hkv
    obtain ⟨h1, h2, _⟩ := rebuildEntries_spec es [] (by intro k; simp [keyCount]) k
    rw [hx] at h1 h2
    exact ⟨x, hx, h1, h2⟩

theorem decode_duplicate_keys_witness :
    deserialize_internal
      (memOf [4, 3, 0, 0, 0, 0, 0, 0, 0, 2, 0, 0, 0, 0, 0, 0, 240, 63, 1, 1,
        3, 1, 0, 0, 0, 0, 0, 0, 0, 97, 0, 2, 0, 0, 0, 0, 0, 0, 240, 63, 1, 0]) 0 42 =
      .ret 0 42 [.table [(.number 4607182418800017408, .boolean false)]] ∧
    tableGet (rebuildEntries [(.number 4607182418800017408, .boolean true),
      (.string [97], .nil), (.number 4607182418800017408, .boolean false)] [])
      (.number 4607182418800017408) = .boolean false :=
  ⟨(decode_duplicate_keys [(.number 4607182418800017408, .boolean true),
      (.string [97], .nil), (.number 4607182418800017408, .boolean false)]
      (memOf [4, 3, 0, 0, 0, 0, 0, 0, 0, 2, 0, 0, 0, 0, 0, 0, 240, 63, 1, 1,
        3, 1, 0, 0, 0, 0, 0, 0, 0, 97, 0, 2, 0, 0, 0, 0, 0, 0, 240, 63, 1, 0]) 0 42
      (by decide) (by decide) (by decide)).1, by decide⟩

/-- C10 as stated fails on two well-formed table encodings: when the last
entry of a duplicated key carries nil the decoded table holds no entry for the
key, and when a key is a NaN `lua_settable` raises an error. -/
theorem decode_duplicate_keys_counterexample :
    deserialize_internal
      (memOf [4, 2, 0, 0, 0, 0, 0, 0, 0, 2, 0, 0, 0, 0, 0, 0, 240, 63, 1, 1,
        2, 0, 0, 0, 0, 0, 0, 240, 63, 0]) 0 30 = .ret 0 30 [.table []] ∧
    deserialize_internal
      (memOf [4, 1, 0, 0, 0, 0, 0, 0, 0, 2, 0, 0, 0, 0, 0, 0, 248, 127, 1, 1]) 0 20 =
      .raised := by
  decide

/-! ## Decoding a strict prefix -/

theorem serEntries_append (cvt : Str2Number) : ∀ (es1 es2 : List (LuaValue × LuaValue)),
    serEntries cvt (es1 ++ es2) = serEntries cvt es1 ++ serEntries cvt es2
  | [], es2 => by simp [serEntries]
  | (k, v) :: rest, es2 => by
      rw [List.cons_append, serEntries, serEntries, serEntries_append cvt rest es2]
      simp only [List.append_assoc]

theorem WireEntries_append : ∀ (es1 es2 : List (LuaValue × LuaValue)),
    WireEntries (es1 ++ es2) = (WireEntries es1 && WireEntries es2)
  | [], es2 => by simp [WireEntries]
  | (k, v) :: rest, es2 => by
      rw [List.cons_append, WireEntries, WireEntries, WireEntries_append rest es2]
      simp only [Bool.and_assoc]

theorem read_key_truncated {mem : Mem} {pos end_ : Nat} {k : LuaValue} (hk : WireKey k = true)
    (hat : At mem pos (key noCvt k)) (h1 : pos < end_) (h2 : end_ < pos + (key noCvt k).length) :
    read_key mem pos end_ = .error (-1) := by
  cases k with
  | number d =>
    simp only [key, lua_isnumber, ↓reduceIte, lua_tonumber, List.length_cons, le64_length] at hat h2
    have h3 : pos + 1 + 8 > end_ := by omega
    simp only [read_key, hat.1, ↓reduceIte, h3]
  | string s =>
    simp only [WireKey, Bool.and_eq_true, decide_eq_true_eq] at hk
    simp only [key, lua_isnumber, noCvt, Option.isSome_none, Bool.false_eq_true, ↓reduceIte,
      lua_isstring, lua_tolstring, List.length_cons, List.length_append, le64_length] at hat h2
    obtain ⟨h4, _⟩ := At_le64 hk.1 hat.2
    have h7 : (3 : Nat) ≠ 2 := by decide
    by_cases h3 : pos + 1 + 8 > end_
    · simp only [read_key, hat.1, h7, ↓reduceIte, h3]
    · have h5 : pos + 1 + 8 + s.length > end_ := by omega
      simp only [read_key, hat.1, h7, ↓reduceIte, h3, h4, h5]
  | nil => simp [WireKey] at hk
  | boolean b => simp [WireKey] at hk
  | table es => simp [WireKey] at hk
  | other => simp [WireKey] at hk

/-- A strict prefix of the encoding of a value that is not a table is rejected
with return code -1. -/
theorem decode_truncated_scalar (v : LuaValue) (hw : Wire v = true)
    (hv : ∀ es, v ≠ .table es) (mem : Mem) (buffer k : Nat)
    (hat : At mem buffer (ser noCvt v)) (hk : k < (ser noCvt v).length) :
    deserialize_internal mem buffer (buffer + k) = .ret (-1) buffer [] := by
  apply deserialize_internal_of_fuel (f := 1)
  rw [deserialize_fuel_succ]
  by_cases h0 : buffer + 1 > buffer + k
  · simp only [h0, ↓reduceIte]
  simp only [h0, ↓reduceIte]
  cases v with
  | nil => simp only [ser, List.length_cons, List.length_nil] at hk; omega
  | boolean b =>
    simp only [ser, List.length_cons, List.length_nil] at hk hat
    have h1 : buffer + 1 + 1 > buffer + k := by omega
    have h2 : (1 : Nat) ≠ 0 := by decide
    simp only [hat.1, h2, ↓reduceIte, h1]
  | number d =>
    simp only [ser, List.length_cons, le64_length] at hk hat
    have h1 : buffer + 1 + 8 > buffer + k := by omega
    have h2 : (2 : Nat) ≠ 0 := by decide
    have h3 : (2 : Nat) ≠ 1 := by decide
    simp only [hat.1, h2, h3, ↓reduceIte, h1]
  | string s =>
    simp only [Wire, Bool.and_eq_true, decide_eq_true_eq] at hw
    simp only [ser, List.length_cons, List.length_append, le64_length] at hk hat
    obtain ⟨h4, _⟩ := At_le64 hw.1 hat.2
    have h2 : (3 : Nat) ≠ 0 := by decide
    have h3 : (3 : Nat) ≠ 1 := by decide
    have h5 : (3 : Nat) ≠ 2 := by decide
    by_cases h1 : buffer + 1 + 8 > buffer + k
    · simp only [hat.1, h2, h3, h5, ↓reduceIte, h1]
    · have h6 : buffer + 1 + 8 + s.length > buffer + k := by omega
      simp only [hat.1, h2, h3, h5, ↓reduceIte, h1, h4, h6]
  | table es => exact absurd rfl (hv es)
  | other => simp [Wire] at hw

/-- The table case up to the loop: with the tag, the count and room for the
count check, the call continues with the loop. -/
theorem deserialize_fuel_table {f : Nat} {mem : Mem} {buffer end_ : Nat} {st : Stack}
    {es : List (LuaValue × LuaValue)} (hlen : es.length < 18446744073709551616)
    (hat : At mem buffer (4 :: (le64 es.length ++ serEntries noCvt es)))
    (hend : buffer + 9 + es.length ≤ end_) :
    deserialize_fuel (f + 1) mem buffer end_ st =
      table_loop f mem buffer es.length 0 (buffer + 1 + 8) end_ (.table [] :: st) := by
  obtain ⟨h4, _⟩ := At_le64 hlen hat.2
  have h1 : ¬ buffer + 1 > end_ := by omega
  have h2 : ¬ buffer + 1 + 8 > end_ := by omega
  have h3 : ¬ buffer + 1 + 8 + es.length > end_ := by omega
  have e0 : (4 : Nat) ≠ 0 := by decide
  have e1 : (4 : Nat) ≠ 1 := by decide
  have e2 : (4 : Nat) ≠ 2 := by decide
  have e3 : (4 : Nat) ≠ 3 := by decide
  rw [deserialize_fuel_succ]
  simp only [h1, ↓reduceIte, hat.1, e0, e1, e2, e3, h2, h4, h3]

/-- A prefix that is too short for the count check of the table case is
rejected with return code -1. -/
theorem decode_truncated_count (es : List (LuaValue × LuaValue))
    (hw : Wire (.table es) = true) (mem : Mem) (buffer k : Nat)
    (hat : At mem buffer (ser noCvt (.table es))) (hk : k < 9 + es.length) :
    deserialize_internal mem buffer (buffer + k) = .ret (-1) buffer [] := by
  simp only [Wire, Bool.and_eq_true, decide_eq_true_eq] at hw
  simp only [ser] at hat
  obtain ⟨h4, _⟩ := At_le64 hw.1 hat.2
  apply deserialize_internal_of_fuel (f := 1)
  rw [deserialize_fuel_succ]
  by_cases h0 : buffer + 1 > buffer + k
  · simp only [h0, ↓reduceIte]
  simp only [h0, ↓reduceIte]
  have e0 : (4 : Nat) ≠ 0 := by decide
  have e1 : (4 : Nat) ≠ 1 := by decide
  have e2 : (4 : Nat) ≠ 2 := by decide
  have e3 : (4 : Nat) ≠ 3 := by decide
  by_cases h1 : buffer + 1 + 8 > buffer + k
  · simp only [hat.1, e0, e1, e2, e3, ↓reduceIte, h1]
  · have h6 : buffer + 1 + 8 + es.length > buffer + k := by omega
    simp only [hat.1, e0, e1, e2, e3, ↓reduceIte, h1, h4, h6]

/-- The table loop after the entries `es1` of a table encoding `es1 ++ rest`
cut at `end_`, when the cut is not inside `es1`. -/
theorem decode_table_split (es1 rest : List (LuaValue × LuaValue))
    (hw : Wire (.table (es1 ++ rest)) = true) (mem : Mem) (buffer end_ : Nat)
    (hat : At mem buffer (ser noCvt (.table (es1 ++ rest))))
    (h1 : buffer + 9 + (es1 ++ rest).length ≤ end_)
    (h2 : buffer + 9 + (serEntries noCvt es1).length ≤ end_) (o : Outcome)
    (ho : ∃ f0, table_loop f0 mem buffer (es1 ++ rest).length es1.length
      (buffer + 9 + (serEntries noCvt es1).length) end_ [.table (rebuildEntries es1 [])] =
      some o) :
    deserialize_internal mem buffer end_ = o := by
  simp only [Wire, Bool.and_eq_true, decide_eq_true_eq, WireEntries_append] at hw
  simp only [ser, serEntries_append] at hat
  have hat2 := hat.2
  rw [At_append, le64_length, At_append] at hat2
  obtain ⟨f, hf⟩ := decode_entries es1 hw.2.1 mem buffer (es1 ++ rest).length 0 (buffer + 1 + 8)
    end_ [] [] o hat2.2.1 (by omega) (by simp)
    (by
      obtain ⟨f0, h0⟩ := ho
      refine ⟨f0, ?_⟩
      rw [← h0]
      congr 1
      omega)
  apply deserialize_internal_of_fuel (f := f + 1)
  rw [deserialize_fuel_table hw.1 (by simpa [ser, serEntries_append] using hat) h1]
  exact hf

theorem lua_isstring_of_wireKey {k : LuaValue} (h : WireKey k = true) : lua_isstring k = true := by
  cases k <;> simp_all [WireKey, lua_isstring]

mutual
theorem encodable_of_wire : ∀ (v : LuaValue), Wire v = true → Encodable v = true
  | .nil, _ => rfl
  | .boolean _, _ => rfl
  | .number _, _ => rfl
  | .string _, _ => rfl
  | .other, h => by simp [Wire] at h
  | .table es, h => by
      simp only [Wire, Bool.and_eq_true] at h
      simp only [Encodable, encodableEntries_of_wire es h.2]
theorem encodableEntries_of_wire : ∀ (es : List (LuaValue × LuaValue)),
    WireEntries es = true → EncodableEntries es = true
  | [], _ => rfl
  | (k, v) :: rest, h => by
      simp only [WireEntries, Bool.and_eq_true] at h
      simp only [EncodableEntries, lua_isstring_of_wireKey h.1.1, encodable_of_wire v h.1.2,
        encodableEntries_of_wire rest h.2, Bool.and_self]
end

theorem luaTableEntries_left : ∀ (es1 es2 : List (LuaValue × LuaValue)),
    LuaTableEntries (es1 ++ es2) = true → LuaTableEntries es1 = true
  | [], _, _ => rfl
  | (k, v) :: rest, es2, h => by
      rw [List.cons_append, LuaTableEntries] at h
      simp only [Bool.and_eq_true, List.all_append] at h
      rw [LuaTableEntries]
      simp only [Bool.and_eq_true]
      exact ⟨⟨⟨h.1.1.1, h.1.1.2.1⟩, h.1.2⟩, luaTableEntries_left rest es2 h.2⟩

/-- C5 (truncation boundary), amended.  Let `serialize_internal` have encoded
a value whose string keys are not numerals, and let `k` be smaller than the
length of the encoding.  On the first `k` bytes `deserialize_internal` returns
-1 when the value is not a table.  For a table with `M` entries it returns -1
when `k < 9 + M`, and also when the cut falls strictly inside the key unit of
an entry of the table; when the cut falls exactly behind an entry and
`9 + M ≤ k`, it returns 0 with the table of the entries before the cut.  A cut
inside or directly before the value of an entry is left open. -/
theorem truncated_decode (cvt : Str2Number) (v : LuaValue) (mem : Mem) (buffer end_ k : Nat)
    (hw : Wire v = true) (ht : LuaTable v = true) (hp : Plain cvt v = true)
    (hrc : (serialize_internal cvt v mem buffer end_).rc = 0)
    (hk : buffer + k < (serialize_internal cvt v mem buffer end_).buffer) :
    ((∀ es, v ≠ .table es) →
      deserialize_internal (serialize_internal cvt v mem buffer end_).mem buffer (buffer + k) =
        .ret (-1) buffer []) ∧
    (∀ es, v = .table es →
      (k < 9 + es.length →
        deserialize_internal (serialize_internal cvt v mem buffer end_).mem buffer (buffer + k) =
          .ret (-1) buffer []) ∧
      (∀ es1 kk vv es2, es = es1 ++ (kk, vv) :: es2 →
        (9 + entriesSize cvt es1 < k → k < 9 + entriesSize cvt es1 + keySize cvt kk →
          ∃ st, deserialize_internal (serialize_internal cvt v mem buffer end_).mem buffer
            (buffer + k) = .ret (-1) buffer st) ∧
        (k = 9 + entriesSize cvt es1 → 9 + es.length ≤ k →
          deserialize_internal (serialize_internal cvt v mem buffer end_).mem buffer
            (buffer + k) = .ret 0 (buffer + k) [.table es1]))) := by
  have heq := serialize_internal_eq cvt v mem buffer end_ hrc
  rw [heq] at hk ⊢
  simp only at hk ⊢
  rw [ser_plain cvt v hp] at hk ⊢
  have hat : At (memcpy mem buffer (ser noCvt v)) buffer (ser noCvt v) :=
    At_memcpy _ _ _ (ser_lt v hw)
  generalize memcpy mem buffer (ser noCvt v) = m at hat ⊢
  refine ⟨fun hv => decode_truncated_scalar v hw hv m buffer k hat (by omega), ?_⟩
  intro es hes
  subst hes
  refine ⟨fun hk2 => decode_truncated_count es hw m buffer k hat hk2, ?_⟩
  intro es1 kk vv es2 hsplit
  subst hsplit
  have hw2 := hw
  simp only [Wire, Bool.and_eq_true, decide_eq_true_eq, WireEntries_append, WireEntries] at hw2
  obtain ⟨hlen, hw1, ⟨hwk, hwv⟩, hwr⟩ := hw2
  simp only [Plain] at hp
  have hp1 : PlainEntries cvt es1 = true := by
    have : ∀ (a b : List (LuaValue × LuaValue)), PlainEntries cvt (a ++ b) = true →
        PlainEntries cvt a = true := by
      intro a
      induction a with
      | nil => intro _ _; rfl
      | cons e a ih =>
        intro b h
        obtain ⟨x, y⟩ := e
        rw [List.cons_append, PlainEntries] at h
        rw [PlainEntries]
        simp only [Bool.and_eq_true] at h ⊢
        exact ⟨h.1, ih b h.2⟩
    exact this _ _ hp
  have hpk : coerced cvt kk = false := by
    have : ∀ (a : List (LuaValue × LuaValue)), PlainEntries cvt (a ++ (kk, vv) :: es2) = true →
        coerced cvt kk = false := by
      intro a
      induction a with
      | nil =>
        intro h
        rw [List.nil_append, PlainEntries] at h
        simp only [Bool.and_eq_true, Bool.not_eq_true'] at h
        exact h.1.1
      | cons e a ih =>
        intro h
        obtain ⟨x, y⟩ := e
        rw [List.cons_append, PlainEntries] at h
        simp only [Bool.and_eq_true] at h
        exact ih h.2
    exact this _ hp
  have hs1 : entriesSize cvt es1 = (serEntries noCvt es1).length := by
    rw [← serEntries_plain cvt es1 hp1, serEntries_length cvt es1 (encodableEntries_of_wire es1 hw1)]
  have hs2 : keySize cvt kk = (key noCvt kk).length := by
    rw [← key_plain cvt kk hpk, key_length cvt kk (lua_isstring_of_wireKey hwk)]
  have hat3 : At m (buffer + 9 + (serEntries noCvt es1).length) (key noCvt kk) := by
    have h := hat
    simp only [ser, serEntries_append, serEntries] at h
    have h2 := h.2
    rw [At_append, le64_length, At_append, At_append] at h2
    have h3 := h2.2.2.1
    have e : buffer + 1 + 8 + (serEntries noCvt es1).length =
        buffer + 9 + (serEntries noCvt es1).length := by omega
    rw [e] at h3
    exact h3
  simp only [LuaTable] at ht
  have hr1 : rebuildEntries es1 [] = es1 := by
    have := rebuildEntries_luaTable es1 (luaTableEntries_left es1 _ ht) [] (by simp)
    simpa using this
  rw [hs1, hs2]
  constructor
  · intro hk1 hk2
    by_cases hc : k < 9 + (es1 ++ (kk, vv) :: es2).length
    · exact ⟨_, decode_truncated_count _ hw m buffer k hat hc⟩
    · refine ⟨[.table (rebuildEntries es1 [])],
        decode_table_split es1 ((kk, vv) :: es2) hw m buffer (buffer + k) hat
        (by omega) (by omega) (.ret (-1) buffer [.table (rebuildEntries es1 [])]) ⟨1, ?_⟩⟩
      rw [table_loop_succ]
      have hcnt : es1.length < (es1 ++ (kk, vv) :: es2).length ∧
          buffer + 9 + (serEntries noCvt es1).length < buffer + k := by
        simp only [List.length_append, List.length_cons]
        omega
      simp only [hcnt, and_self, ↓reduceIte,
        read_key_truncated hwk hat3 (by omega : buffer + 9 + (serEntries noCvt es1).length <
          buffer + k) (by omega)]
  · intro hk1 hk2
    have := decode_table_split es1 ((kk, vv) :: es2) hw m buffer (buffer + k) hat
      (by omega) (by omega) _ ⟨1, table_loop_exit 0 m buffer _ _ _ _ _ (by omega)⟩
    rw [this, hr1]
    congr 1
    omega

theorem truncated_decode_witness :
    deserialize_internal
      (serialize_internal noCvt (.table [(.number 4607182418800017408, .boolean true),
        (.number 4611686018427387904, .boolean true)])
        (fun _ => 0) 0 31).mem 0 (0 + 10) = .ret (-1) 0 [] ∧
    deserialize_internal
      (serialize_internal noCvt (.table [(.number 4607182418800017408, .boolean true),
        (.number 4611686018427387904, .boolean true)])
        (fun _ => 0) 0 31).mem 0 (0 + 20) = .ret 0 (0 + 20) [.table [(.number 4607182418800017408, .boolean true)]] :=
  ⟨((truncated_decode noCvt
      (.table [(.number 4607182418800017408, .boolean true),
        (.number 4611686018427387904, .boolean true)]) (fun _ => 0) 0 31 10
      (by decide) (by decide) (by decide) (by decide) (by decide)).2 _ rfl).1 (by decide),
   (((truncated_decode noCvt
      (.table [(.number 4607182418800017408, .boolean true),
        (.number 4611686018427387904, .boolean true)]) (fun _ => 0) 0 31 20
      (by decide) (by decide) (by decide) (by decide) (by decide)).2 _ rfl).2
      [(.number 4607182418800017408, .boolean true)] (.number 4611686018427387904) (.boolean true) [] rfl).2 (by decide) (by decide)⟩

/-- C5 as stated fails on the encoding of a table with two entries: it is 31
bytes long, and on its first 20 bytes, which end exactly behind the first
entry, `deserialize_internal` returns 0 with a table of one entry. -/
theorem truncated_decode_counterexample :
    (serialize_internal noCvt (.table [(.number 4607182418800017408, .boolean true),
      (.number 4611686018427387904, .boolean true)]) (fun _ => 0) 0 1024).rc = 0 ∧
    (serialize_internal noCvt (.table [(.number 4607182418800017408, .boolean true),
      (.number 4611686018427387904, .boolean true)]) (fun _ => 0) 0 1024).buffer = 31 ∧
    deserialize_internal
      (serialize_internal noCvt (.table [(.number 4607182418800017408, .boolean true),
        (.number 4611686018427387904, .boolean true)]) (fun _ => 0) 0 1024).mem 0 20 =
      .ret 0 20 [.table [(.number 4607182418800017408, .boolean true)]] := by
  decide

/-! ## The cursor and the return codes of the decoder -/

theorem read_key_error {mem : Mem} {pos end_ : Nat} {rc : Int}
    (h : read_key mem pos end_ = .error rc) : rc = -1 ∨ rc = -9 := by
  simp only [read_key] at h
  by_cases c2 : mem.read pos = 2
  · simp only [c2, ↓reduceIte] at h
    by_cases c : pos + 1 + 8 > end_
    · simp only [c, ↓reduceIte, Except.error.injEq] at h
      exact Or.inl h.symm
    · simp [c] at h
  · simp only [c2, ↓reduceIte] at h
    by_cases c3 : mem.read pos = 3
    · simp only [c3, ↓reduceIte] at h
      by_cases c : pos + 1 + 8 > end_
      · simp only [c, ↓reduceIte, Except.error.injEq] at h
        exact Or.inl h.symm
      · simp only [c, ↓reduceIte] at h
        by_cases c' : pos + 1 + 8 + read64 mem (pos + 1) > end_
        · simp only [c', ↓reduceIte, Except.error.injEq] at h
          exact Or.inl h.symm
        · simp [c'] at h
    · simp only [c3, ↓reduceIte, Except.error.injEq] at h
      exact Or.inr h.symm

theorem return_facts : ∀ (f : Nat),
    (∀ mem buffer end_ st o, deserialize_fuel f mem buffer end_ st = some o →
      ReturnOk buffer (buffer + 1) end_ o) ∧
    (∀ mem buffer len cnt pos end_ st o, table_loop f mem buffer len cnt pos end_ st = some o →
      ReturnOk buffer pos (max pos end_) o) := by
  intro f
  induction f with
  | zero =>
    constructor
    · intro mem buffer end_ st o h; simp [deserialize_fuel_zero] at h
    · intro mem buffer len cnt pos end_ st o h; simp [table_loop_zero] at h
  | succ f ih =>
    constructor
    · intro mem buffer end_ st o h
      rw [deserialize_fuel_succ] at h
      by_cases c1 : buffer + 1 > end_
      · simp only [c1, ↓reduceIte, Option.some.injEq] at h
        subst h; simp [ReturnOk]
      simp only [c1, ↓reduceIte] at h
      by_cases c2 : mem.read buffer = 0
      · simp only [c2, ↓reduceIte, Option.some.injEq] at h
        subst h; exact ⟨Or.inl rfl, fun h0 => absurd rfl h0, fun _ => by omega⟩
      simp only [c2, ↓reduceIte] at h
      by_cases c3 : mem.read buffer = 1
      · simp only [c3, ↓reduceIte] at h
        by_cases c : buffer + 1 + 1 > end_
        · simp only [c, ↓reduceIte, Option.some.injEq] at h
          subst h; simp [ReturnOk]
        · simp only [c, ↓reduceIte, Option.some.injEq] at h
          subst h; exact ⟨Or.inl rfl, fun h0 => absurd rfl h0, fun _ => by omega⟩
      simp only [c3, ↓reduceIte] at h
      by_cases c4 : mem.read buffer = 2
      · simp only [c4, ↓reduceIte] at h
        by_cases c : buffer + 1 + 8 > end_
        · simp only [c, ↓reduceIte, Option.some.injEq] at h
          subst h; simp [ReturnOk]
        · simp only [c, ↓reduceIte, Option.some.injEq] at h
          subst h; exact ⟨Or.inl rfl, fun h0 => absurd rfl h0, fun _ => by omega⟩
      simp only [c4, ↓reduceIte] at h
      by_cases c5 : mem.read buffer = 3
      · simp only [c5, ↓reduceIte] at h
        by_cases c : buffer + 1 + 8 > end_
        · simp only [c, ↓reduceIte, Option.some.injEq] at h
          subst h; simp [ReturnOk]
        simp only [c, ↓reduceIte] at h
        by_cases c' : buffer + 1 + 8 + read64 mem (buffer + 1) > end_
        · simp only [c', ↓reduceIte, Option.some.injEq] at h
          subst h; simp [ReturnOk]
        · simp only [c', ↓reduceIte, Option.some.injEq] at h
          subst h; exact ⟨Or.inl rfl, fun h0 => absurd rfl h0, fun _ => by omega⟩
      simp only [c5, ↓reduceIte] at h
      by_cases c6 : mem.read buffer = 4
      · simp only [c6, ↓reduceIte] at h
        by_cases c : buffer + 1 + 8 > end_
        · simp only [c, ↓reduceIte, Option.some.injEq] at h
          subst h; simp [ReturnOk]
        simp only [c, ↓reduceIte] at h
        by_cases c' : buffer + 1 + 8 + read64 mem (buffer + 1) > end_
        · simp only [c', ↓reduceIte, Option.some.injEq] at h
          subst h; simp [ReturnOk]
        simp only [c', ↓reduceIte] at h
        have h2 := ih.2 _ _ _ _ _ _ _ _ h
        cases o with
        | ret rc p s =>
          simp only [ReturnOk] at h2 ⊢
          refine ⟨h2.1, h2.2.1, fun h0 => ?_⟩
          have := h2.2.2 h0
          omega
        | raised => trivial
        | fault => trivial
      simp only [c6, ↓reduceIte, Option.some.injEq] at h
      subst h; simp [ReturnOk]
    · intro mem buffer len cnt pos end_ st o h
      rw [table_loop_succ] at h
      by_cases c1 : cnt < len ∧ pos < end_
      · simp only [c1, and_self, ↓reduceIte] at h
        cases hk : read_key mem pos end_ with
        | error rc =>
          simp only [hk, Option.some.injEq] at h
          subst h
          have := read_key_error hk
          refine ⟨Or.inr this, fun _ => rfl, fun h0 => ?_⟩
          rcases this with h3 | h3 <;> omega
        | ok pk =>
          obtain ⟨p1, k⟩ := pk
          have hp1 := read_key_ok hk
          simp only [hk] at h
          cases hd : deserialize_fuel f mem p1 end_ (k :: st) with
          | none => simp [hd] at h
          | some out =>
            have h1 := ih.1 _ _ _ _ _ hd
            rw [hd] at h
            cases out with
            | ret rc p2 st2 =>
              simp only at h
              simp only [ReturnOk] at h1
              have hp2 : p1 ≤ p2 ∧ p2 ≤ end_ := by
                by_cases h0 : rc = 0
                · have := h1.2.2 h0; omega
                · have := h1.2.1 h0; omega
              cases hs : lua_settable st2 with
              | ok st3 =>
                simp only [hs] at h
                have h2 := ih.2 _ _ _ _ _ _ _ _ h
                cases o with
                | ret rc3 p3 s3 =>
                  simp only [ReturnOk] at h2 ⊢
                  refine ⟨h2.1, h2.2.1, fun h0 => ?_⟩
                  have := h2.2.2 h0
                  omega
                | raised => trivial
                | fault => trivial
              | raised => simp only [hs, Option.some.injEq] at h; subst h; trivial
              | fault => simp only [hs, Option.some.injEq] at h; subst h; trivial
            | raised => simp only [Option.some.injEq] at h; subst h; trivial
            | fault => simp only [Option.some.injEq] at h; subst h; trivial
      · simp only [c1, ↓reduceIte, Option.some.injEq] at h
        subst h
        exact ⟨Or.inl rfl, fun h0 => absurd rfl h0, fun _ => ⟨Nat.le_refl _, Nat.le_max_left _ _⟩⟩

/-- The facts of `ReturnOk` for `deserialize_internal`. -/
theorem deserialize_internal_return (mem : Mem) (buffer end_ : Nat) :
    ReturnOk buffer (buffer + 1) end_ (deserialize_internal mem buffer end_) := by
  obtain ⟨o, ho⟩ := deserialize_fuel_total mem buffer end_ []
  rw [deserialize_internal_of_fuel ho]
  exact (return_facts _).1 _ _ _ _ _ ho
/-! ## Without wrap-around the outcome depends on the bytes below `end` only -/

theorem read_agree {m1 m2 : Mem} {a : Nat} (h : m1 a = m2 a) : m1.read a = m2.read a := by
  simp only [Mem.read, h]

theorem readBytes_agree {m1 m2 : Mem} {lo hi : Nat}
    (h : ∀ a, lo ≤ a → a < hi → m1 a = m2 a) : ∀ (n src : Nat), lo ≤ src → src + n ≤ hi →
    readBytes m1 src n = readBytes m2 src n
  | 0, _, _, _ => rfl
  | n + 1, src, h1, h2 => by
      simp only [readBytes]
      rw [read_agree (h src h1 (by omega)), readBytes_agree h n (src + 1) (by omega) (by omega)]

theorem read64_agree {m1 m2 : Mem} {lo hi : Nat}
    (h : ∀ a, lo ≤ a → a < hi → m1 a = m2 a) (src : Nat) (h1 : lo ≤ src) (h2 : src + 8 ≤ hi) :
    read64 m1 src = read64 m2 src := by
  simp only [read64, readBytes_agree h 8 src h1 h2]

theorem read_key_agree {m1 m2 : Mem} {lo end_ : Nat}
    (h : ∀ a, lo ≤ a → a < end_ → m1 a = m2 a) (pos : Nat) (h1 : lo ≤ pos) (h2 : pos < end_) :
    read_key m1 pos end_ = read_key m2 pos end_ := by
  simp only [read_key]
  rw [read_agree (h pos h1 h2)]
  by_cases c : pos + 1 + 8 > end_
  · simp only [c, ↓reduceIte]
  · have e := read64_agree h (pos + 1) (by omega) (by omega)
    simp only [c, ↓reduceIte, e]
    by_cases c' : pos + 1 + 8 + read64 m2 (pos + 1) > end_
    · simp only [c', ↓reduceIte]
    · simp only [c', ↓reduceIte,
        readBytes_agree h (read64 m2 (pos + 1)) (pos + 1 + 8) (by omega) (by omega)]

theorem fuel_agree {m1 m2 : Mem} {lo end_ : Nat}
    (h : ∀ a, lo ≤ a → a < end_ → m1 a = m2 a) : ∀ (f : Nat),
    (∀ buffer st, lo ≤ buffer →
      deserialize_fuel f m1 buffer end_ st = deserialize_fuel f m2 buffer end_ st) ∧
    (∀ buffer len cnt pos st, lo ≤ pos →
      table_loop f m1 buffer len cnt pos end_ st = table_loop f m2 buffer len cnt pos end_ st) := by
  intro f
  induction f with
  | zero => exact ⟨fun _ _ _ => rfl, fun _ _ _ _ _ _ => rfl⟩
  | succ f ih =>
    constructor
    · intro buffer st hlo
      rw [deserialize_fuel_succ, deserialize_fuel_succ]
      by_cases c1 : buffer + 1 > end_
      · simp only [c1, ↓reduceIte]
      simp only [c1, ↓reduceIte]
      rw [read_agree (h buffer hlo (by omega))]
      by_cases c2 : m2.read buffer = 0
      · simp only [c2, ↓reduceIte]
      simp only [c2, ↓reduceIte]
      by_cases c3 : m2.read buffer = 1
      · simp only [c3, ↓reduceIte]
        by_cases c : buffer + 1 + 1 > end_
        · simp only [c, ↓reduceIte]
        · simp only [c, ↓reduceIte, read_agree (h (buffer + 1) (by omega) (by omega))]
      simp only [c3, ↓reduceIte]
      by_cases c : buffer + 1 + 8 > end_
      · simp only [c, ↓reduceIte]
      have e := read64_agree h (buffer + 1) (by omega) (by omega)
      simp only [c, ↓reduceIte, e]
      by_cases c' : buffer + 1 + 8 + read64 m2 (buffer + 1) > end_
      · simp only [c', ↓reduceIte]
      simp only [c', ↓reduceIte, ih.2 _ _ _ _ _ (by omega : lo ≤ buffer + 1 + 8),
        readBytes_agree h (read64 m2 (buffer + 1)) (buffer + 1 + 8) (by omega) (by omega)]
    · intro buffer len cnt pos st hlo
      rw [table_loop_succ, table_loop_succ]
      by_cases c1 : cnt < len ∧ pos < end_
      · simp only [c1, and_self, ↓reduceIte]
        rw [read_key_agree h pos hlo c1.2]
        cases hk : read_key m2 pos end_ with
        | error rc => rfl
        | ok pk =>
          obtain ⟨p1, k⟩ := pk
          have hp1 := read_key_ok hk
          simp only
          rw [ih.1 p1 (k :: st) (by omega)]
          cases hd : deserialize_fuel f m2 p1 end_ (k :: st) with
          | none => rfl
          | some out =>
            have h1 := (return_facts f).1 _ _ _ _ _ hd
            cases out with
            | ret rc p2 st2 =>
              simp only [ReturnOk] at h1
              have hp2 : p1 ≤ p2 := by
                by_cases h0 : rc = 0
                · have := h1.2.2 h0; omega
                · have := h1.2.1 h0; omega
              simp only
              cases hs : lua_settable st2 with
              | ok st3 => exact ih.2 _ _ _ _ _ (by omega)
              | raised => rfl
              | fault => rfl
            | raised => rfl
            | fault => rfl
      · simp only [c1, ↓reduceIte]

/-! ## Return codes and cursor of the encoder -/

mutual
theorem serialize_internal_codes (cvt : Str2Number) :
    ∀ (v : LuaValue) (mem : Mem) (buffer end_ : Nat),
    (serialize_internal cvt v mem buffer end_).rc = 0 ∨
    (serialize_internal cvt v mem buffer end_).rc = -1 ∨
    (serialize_internal cvt v mem buffer end_).rc = -9
  | .nil, mem, buffer, end_ => by
      simp only [serialize_internal]; split <;> simp
  | .boolean _, mem, buffer, end_ => by
      simp only [serialize_internal]; split <;> simp
  | .number _, mem, buffer, end_ => by
      simp only [serialize_internal]; split <;> simp
  | .string _, mem, buffer, end_ => by
      simp only [serialize_internal]; split <;> simp
  | .other, mem, buffer, end_ => by simp [serialize_internal]
  | .table es, mem, buffer, end_ => by
      have ih := serialize_entries_codes cvt es (mem.write buffer 4) (buffer + 1 + 8) end_ 0
      simp only [serialize_internal]
      by_cases c1 : buffer + 1 > end_
      · simp [c1]
      · simp only [c1, ↓reduceIte]
        by_cases c2 : (serialize_entries cvt es (mem.write buffer 4) (buffer + 1 + 8) end_ 0).rc = 0
        · simp [c2]
        · simp only [ne_eq, c2, not_false_eq_true, ↓reduceIte]
          exact Or.inr (ih.resolve_left c2)
theorem serialize_entries_codes (cvt : Str2Number) :
    ∀ (es : List (LuaValue × LuaValue)) (mem : Mem) (pos end_ len : Nat),
    (serialize_entries cvt es mem pos end_ len).rc = 0 ∨
    (serialize_entries cvt es mem pos end_ len).rc = -1 ∨
    (serialize_entries cvt es mem pos end_ len).rc = -9
  | [], mem, pos, end_, len => by simp [serialize_entries]
  | (k, v) :: rest, mem, pos, end_, len => by
      simp only [serialize_entries]
      cases hn : lua_isnumber cvt k
      · simp only [Bool.false_eq_true, ↓reduceIte]
        cases hs : lua_isstring k
        · simp
        · simp only [↓reduceIte]
          by_cases c1 : pos + 1 + 8 + (lua_tolstring k).length > end_
          · simp [c1]
          · simp only [c1, ↓reduceIte]
            have ihv := serialize_internal_codes cvt v
              (memcpy (memcpy (mem.write pos 3) (pos + 1) (le64 (lua_tolstring k).length))
                (pos + 1 + 8) (lua_tolstring k))
              (pos + 1 + 8 + (lua_tolstring k).length) end_
            by_cases c2 : (serialize_internal cvt v
                (memcpy (memcpy (mem.write pos 3) (pos + 1) (le64 (lua_tolstring k).length))
                  (pos + 1 + 8) (lua_tolstring k))
                (pos + 1 + 8 + (lua_tolstring k).length) end_).rc = 0
            · simp only [ne_eq, c2, not_true_eq_false, ↓reduceIte]
              exact serialize_entries_codes cvt rest _ _ _ _
            · simp only [ne_eq, c2, not_false_eq_true, ↓reduceIte]
              exact Or.inr (ihv.resolve_left c2)
      · simp only [↓reduceIte]
        by_cases c1 : pos + 1 + 8 > end_
        · simp [c1]
        · simp only [c1, ↓reduceIte]
          have ihv := serialize_internal_codes cvt v
            (memcpy (mem.write pos 2) (pos + 1) (le64 (lua_tonumber cvt k))) (pos + 1 + 8) end_
          by_cases c2 : (serialize_internal cvt v
              (memcpy (mem.write pos 2) (pos + 1) (le64 (lua_tonumber cvt k)))
              (pos + 1 + 8) end_).rc = 0
          · simp only [ne_eq, c2, not_true_eq_false, ↓reduceIte]
            exact serialize_entries_codes cvt rest _ _ _ _
          · simp only [ne_eq, c2, not_false_eq_true, ↓reduceIte]
            exact Or.inr (ihv.resolve_left c2)
end

theorem serialize_internal_failure_cursor (cvt : Str2Number) (v : LuaValue) (mem : Mem)
    (buffer end_ : Nat) (h : (serialize_internal cvt v mem buffer end_).rc ≠ 0) :
    (serialize_internal cvt v mem buffer end_).buffer = buffer := by
  cases v with
  | nil => simp only [serialize_internal] at h ⊢; split <;> simp_all
  | boolean b => simp only [serialize_internal] at h ⊢; split <;> simp_all
  | number d => simp only [serialize_internal] at h ⊢; split <;> simp_all
  | string s => simp only [serialize_internal] at h ⊢; split <;> simp_all
  | other => rfl
  | table es =>
    simp only [serialize_internal] at h ⊢
    by_cases c1 : buffer + 1 > end_
    · simp only [c1, ↓reduceIte]
    · simp only [c1, ↓reduceIte] at h ⊢
      by_cases c2 : (serialize_entries cvt es (mem.write buffer 4) (buffer + 1 + 8) end_ 0).rc = 0
      · simp [c2] at h
      · simp only [ne_eq, c2, not_false_eq_true, ↓reduceIte]

/-- C17 (cursor is unchanged on failure): both functions return one of the
codes 0, -1 and -9, and whenever `serialize_internal` or `deserialize_internal`
returns a non-zero code the caller's cursor has its value on entry. -/
theorem cursor_unchanged_on_failure (cvt : Str2Number) (v : LuaValue) (mem : Mem)
    (buffer end_ : Nat) :
    ((serialize_internal cvt v mem buffer end_).rc = 0 ∨
      (serialize_internal cvt v mem buffer end_).rc = -1 ∨
      (serialize_internal cvt v mem buffer end_).rc = -9) ∧
    ((serialize_internal cvt v mem buffer end_).rc ≠ 0 →
      (serialize_internal cvt v mem buffer end_).buffer = buffer) ∧
    (∀ rc p st, deserialize_internal mem buffer end_ = .ret rc p st →
      (rc = 0 ∨ rc = -1 ∨ rc = -9) ∧ (rc ≠ 0 → p = buffer)) := by
  refine ⟨serialize_internal_codes cvt v mem buffer end_,
    serialize_internal_failure_cursor cvt v mem buffer end_, ?_⟩
  intro rc p st h
  have := deserialize_internal_return mem buffer end_
  rw [h] at this
  exact ⟨this.1, this.2.1⟩

theorem cursor_unchanged_on_failure_witness :
    (serialize_internal noCvt (.table [(.boolean true, .nil)]) (fun _ => 0) 3 100).rc ≠ 0 ∧
    (serialize_internal noCvt (.table [(.boolean true, .nil)]) (fun _ => 0) 3 100).buffer = 3 ∧
    deserialize_internal (memOf [0, 0, 0, 4, 1, 0, 0, 0, 0, 0, 0, 0, 7]) 3 13 =
      .ret (-9) 3 [.table []] :=
  ⟨by decide,
   (cursor_unchanged_on_failure noCvt (.table [(.boolean true, .nil)]) (fun _ => 0) 3 100).2.1
     (by decide),
   by decide⟩

/-! ## Further claims -/

/-- C11 (encoder write bounds), evaluated on the empty table with a buffer of
one byte, cursor 0 and `end` 1: `serialize_internal` returns 0, the new cursor
is 9, behind `end`, and the bytes at the addresses 1 to 8, none of them below
`end`, have been overwritten with the count. -/
theorem serialize_internal_writes_past_end (cvt : Str2Number) :
    (serialize_internal cvt (.table []) (fun _ => 255) 0 1).rc = 0 ∧
    (serialize_internal cvt (.table []) (fun _ => 255) 0 1).buffer = 9 ∧
    readBytes (fun _ => 255) 0 9 = [255, 255, 255, 255, 255, 255, 255, 255, 255] ∧
    readBytes (serialize_internal cvt (.table []) (fun _ => 255) 0 1).mem 0 9 =
      [4, 0, 0, 0, 0, 0, 0, 0, 0] := by
  refine ⟨rfl, rfl, by decide, ?_⟩
  simp [serialize_internal, serialize_entries, memcpy, le64, Mem.write, readBytes, Mem.read]

/-- C13 (key kind is preserved by the encoder), evaluated on the table
`{ ["10"] = true }`: when Lua converts the string "10" to the number 10 the
key unit that `serialize_internal` emits at byte 9 is the Number unit, tag 2
and the 8 bytes of 10.0, not the Text unit `3, 2, 0, 0, 0, 0, 0, 0, 0, 49, 48`,
and the encoding is 20 bytes long instead of 22. -/
theorem numeral_key_emitted_as_number (cvt : Str2Number) (mem : Mem)
    (h : cvt [49, 48] = some 4621819117588971520) :
    (serialize_internal cvt (.table [(.string [49, 48], .boolean true)]) mem 0 1024).rc = 0 ∧
    (serialize_internal cvt (.table [(.string [49, 48], .boolean true)]) mem 0 1024).buffer
      = 20 ∧
    readBytes
      (serialize_internal cvt (.table [(.string [49, 48], .boolean true)]) mem 0 1024).mem 9 9 =
      [2, 0, 0, 0, 0, 0, 0, 36, 64] ∧
    key noCvt (.string [49, 48]) = [3, 2, 0, 0, 0, 0, 0, 0, 0, 49, 48] := by
  have hrc : (serialize_internal cvt (.table [(.string [49, 48], .boolean true)]) mem 0 1024).rc
      = 0 := by
    simp [serialize_internal, serialize_entries, lua_isnumber, h]
  have hser : ser cvt (.table [(.string [49, 48], .boolean true)]) =
      [4, 1, 0, 0, 0, 0, 0, 0, 0, 2, 0, 0, 0, 0, 0, 0, 36, 64, 1, 1] := by
    simp [ser, serEntries, key, lua_isnumber, lua_tonumber, h, le64]
  have hat := At_memcpy_mod (ser cvt (.table [(.string [49, 48], .boolean true)])) mem 0
  rw [serialize_internal_eq cvt _ mem 0 1024 hrc, hser]
  rw [hser] at hat
  refine ⟨rfl, rfl, ?_, by decide⟩
  have h9 : At (memcpy mem 0 [4, 1, 0, 0, 0, 0, 0, 0, 0, 2, 0, 0, 0, 0, 0, 0, 36, 64, 1, 1]) 9
      [2, 0, 0, 0, 0, 0, 0, 36, 64] := by
    have := (At_append _ [4, 1, 0, 0, 0, 0, 0, 0, 0] [2, 0, 0, 0, 0, 0, 0, 36, 64, 1, 1] 0).1 hat
    exact ((At_append _ [2, 0, 0, 0, 0, 0, 0, 36, 64] [1, 1] 9).1 this.2).1
  exact readBytes_of_At _ _ 9 h9

theorem numeral_key_emitted_as_number_witness :
    readBytes
      (serialize_internal (fun s => if s = [49, 48] then some 4621819117588971520 else none)
        (.table [(.string [49, 48], .boolean true)]) (fun _ => 0) 0 1024).mem 9 9 =
      [2, 0, 0, 0, 0, 0, 0, 36, 64] :=
  (numeral_key_emitted_as_number _ (fun _ => 0) (by decide)).2.2.1

/-- C14 (short tables are accepted): there is an input that starts with the
Table tag and the count 2 and holds one complete entry, the first 20 bytes of
the encoding of a table with two entries, on which `deserialize_internal`
returns 0 with a table of one entry. -/
theorem short_table_accepted :
    ∃ (input : List Nat) (M : Nat) (es held : List (LuaValue × LuaValue)),
      input = 4 :: (le64 M ++ serEntries noCvt held) ∧ held.length < M ∧
      input = (ser noCvt (.table [(.number 4607182418800017408, .boolean true),
        (.number 4611686018427387904, .boolean true)])).take 20 ∧
      deserialize_internal (memOf input) 0 input.length = .ret 0 input.length [.table es] ∧
      es.length < M :=
  ⟨[4, 2, 0, 0, 0, 0, 0, 0, 0, 2, 0, 0, 0, 0, 0, 0, 240, 63, 1, 1], 2,
   [(.number 4607182418800017408, .boolean true)],
   [(.number 4607182418800017408, .boolean true)],
   by decide, by decide, by decide, by decide, by decide⟩

/-- C15 (decoder key tag restriction): when the table loop of a call of
`deserialize_internal` reads a key tag other than 2 and 3, the call returns -9
with the caller's cursor untouched and reports no table; the table under
construction stays on the Lua stack.  In particular a table encoding whose
first entry has such a key tag is rejected with -9. -/
theorem table_loop_key_tag (fuel : Nat) (mem : Mem) (buffer len cnt pos end_ : Nat) (st : Stack)
    (hcnt : cnt < len) (hpos : pos < end_) (h2 : mem.read pos ≠ 2) (h3 : mem.read pos ≠ 3) :
    table_loop (fuel + 1) mem buffer len cnt pos end_ st = some (.ret (-9) buffer st) ∧
    (mem.read buffer = 4 → buffer + 9 = pos → cnt = 0 → read64 mem (buffer + 1) = len →
      buffer + 9 + len ≤ end_ → st = [.table []] →
      deserialize_internal mem buffer end_ = .ret (-9) buffer [.table []]) := by
  have hloop : ∀ f, table_loop (f + 1) mem buffer len cnt pos end_ st =
      some (.ret (-9) buffer st) := by
    intro f
    rw [table_loop_succ]
    have hc : cnt < len ∧ pos < end_ := ⟨hcnt, hpos⟩
    have hk : read_key mem pos end_ = .error (-9) := by
      simp only [read_key, h2, h3, ↓reduceIte]
    simp only [hc, and_self, ↓reduceIte, hk]
  refine ⟨hloop fuel, ?_⟩
  intro htag hp hc hlen hend hst
  subst hp hc hst
  apply deserialize_internal_of_fuel (f := 2)
  rw [deserialize_fuel_succ]
  have c1 : ¬ buffer + 1 > end_ := by omega
  have c2 : ¬ buffer + 1 + 8 > end_ := by omega
  have c3 : ¬ buffer + 1 + 8 + len > end_ := by omega
  have e0 : (4 : Nat) ≠ 0 := by decide
  have e1 : (4 : Nat) ≠ 1 := by decide
  have e2 : (4 : Nat) ≠ 2 := by decide
  have e3 : (4 : Nat) ≠ 3 := by decide
  simp only [c1, ↓reduceIte, htag, e0, e1, e2, e3, c2, hlen, c3]
  exact hloop 0

theorem table_loop_key_tag_witness :
    table_loop 1 (memOf [4, 1, 0, 0, 0, 0, 0, 0, 0, 1, 1]) 0 1 0 9 11 [.table []] =
      some (.ret (-9) 0 [.table []]) ∧
    deserialize_internal (memOf [4, 1, 0, 0, 0, 0, 0, 0, 0, 1, 1]) 0 11 =
      .ret (-9) 0 [.table []] :=
  ⟨(table_loop_key_tag 0 (memOf [4, 1, 0, 0, 0, 0, 0, 0, 0, 1, 1]) 0 1 0 9 11 [.table []]
      (by decide) (by decide) (by decide) (by decide)).1,
   (table_loop_key_tag 0 (memOf [4, 1, 0, 0, 0, 0, 0, 0, 0, 1, 1]) 0 1 0 9 11 [.table []]
      (by decide) (by decide) (by decide) (by decide)).2 (by decide) (by decide) rfl (by decide)
      (by decide) rfl⟩

/-- C19 (boolean payload is decoded as a non-zero test): on the two bytes
`1, b` `deserialize_internal` returns 0, consumes 2 bytes and pushes the
boolean `b != 0`, for every byte `b`; and the payload byte that
`serialize_internal` emits for a boolean is 0 or 1. -/
theorem boolean_payload (b : Nat) (hb : b < 256) :
    deserialize_internal (memOf [1, b]) 0 2 = .ret 0 2 [.boolean (b != 0)] ∧
    ∀ (cvt : Str2Number) (x : Bool) (mem : Mem) (buffer end_ : Nat),
      (serialize_internal cvt (.boolean x) mem buffer end_).rc = 0 →
      (serialize_internal cvt (.boolean x) mem buffer end_).mem.read (buffer + 1) =
        (if x then 1 else 0) := by
  constructor
  · apply deserialize_internal_of_fuel (f := 1)
    rw [deserialize_fuel_succ]
    have r0 : (memOf [1, b]).read 0 = 1 := rfl
    have r1 : (memOf [1, b]).read (0 + 1) = b := by
      simp only [Mem.read, memOf]
      simp only [Nat.zero_add, List.getD_cons_succ, List.getD_cons_zero]
      omega
    have e0 : (1 : Nat) ≠ 0 := by decide
    simp only [r0, r1, e0, ↓reduceIte, Nat.zero_add, gt_iff_lt, Nat.lt_irrefl,
      Nat.reduceAdd, Nat.reduceLT]
  · intro cvt x mem buffer end_ h
    simp only [serialize_internal] at h ⊢
    by_cases c : buffer + 2 * 1 > end_
    · simp [c] at h
    · simp only [c, ↓reduceIte, Mem.read, Mem.write]
      cases x <;> simp

theorem boolean_payload_witness :
    deserialize_internal (memOf [1, 7]) 0 2 = .ret 0 2 [.boolean true] :=
  (boolean_payload 7 (by decide)).1

/-- C20 (truncation of scalars): for a value that is nil, a boolean, a number
or a string, encoded by `serialize_internal`, `deserialize_internal` on the
first `k` bytes of the encoding, `k` smaller than its length, returns -1,
leaves the cursor where it was and pushes no value. -/
theorem truncated_scalar (cvt : Str2Number) (v : LuaValue) (mem : Mem) (buffer end_ k : Nat)
    (hs : isScalar v = true) (hw : Wire v = true)
    (hrc : (serialize_internal cvt v mem buffer end_).rc = 0)
    (hk : buffer + k < (serialize_internal cvt v mem buffer end_).buffer) :
    deserialize_internal (serialize_internal cvt v mem buffer end_).mem buffer (buffer + k) =
      .ret (-1) buffer [] := by
  have hp : Plain cvt v = true := by cases v <;> simp_all [isScalar, Plain]
  have hv : ∀ es, v ≠ .table es := by
    intro es he; subst he; simp [isScalar] at hs
  rw [serialize_internal_eq cvt v mem buffer end_ hrc] at hk ⊢
  simp only at hk ⊢
  rw [ser_plain cvt v hp] at hk ⊢
  exact decode_truncated_scalar v hw hv _ buffer k (At_memcpy _ _ _ (ser_lt v hw)) (by omega)

theorem truncated_scalar_witness :
    deserialize_internal (serialize_internal noCvt (.string [97, 98]) (fun _ => 0) 0 11).mem 0
      (0 + 10) = .ret (-1) 0 [] :=
  truncated_scalar noCvt (.string [97, 98]) (fun _ => 0) 0 11 10 (by decide) (by decide)
    (by decide) (by decide)

/-! ## Trailing bytes -/

theorem key_coerce (cvt : Str2Number) (k : LuaValue) :
    key cvt k = key noCvt (coerceKey cvt k) := by
  cases k with
  | string s =>
    cases h : cvt s <;>
      simp [key, coerceKey, h, lua_isnumber, lua_isstring, lua_tonumber, lua_tolstring, noCvt]
  | nil => rfl
  | boolean b => rfl
  | number d => rfl
  | table es => rfl
  | other => rfl

theorem coerceEntries_length (cvt : Str2Number) : ∀ (es : List (LuaValue × LuaValue)),
    (coerceEntries cvt es).length = es.length
  | [] => rfl
  | (k, v) :: rest => by
      rw [coerceEntries, List.length_cons, List.length_cons, coerceEntries_length cvt rest]

mutual
theorem ser_coerce (cvt : Str2Number) : ∀ (v : LuaValue),
    ser cvt v = ser noCvt (coerceKeys cvt v)
  | .nil => rfl
  | .boolean _ => rfl
  | .number _ => rfl
  | .string _ => rfl
  | .other => rfl
  | .table es => by
      rw [coerceKeys, ser, ser, serEntries_coerce cvt es, coerceEntries_length]
theorem serEntries_coerce (cvt : Str2Number) : ∀ (es : List (LuaValue × LuaValue)),
    serEntries cvt es = serEntries noCvt (coerceEntries cvt es)
  | [] => rfl
  | (k, v) :: rest => by
      rw [coerceEntries, serEntries, serEntries, key_coerce cvt k, ser_coerce cvt v,
        serEntries_coerce cvt rest]
end

theorem wireKey_coerce (cvt : Str2Number) (hc : CvtOk cvt) (k : LuaValue)
    (h : WireKey k = true) : WireKey (coerceKey cvt k) = true := by
  cases k with
  | string s =>
    cases hs : cvt s with
    | none => simpa [coerceKey, hs] using h
    | some d =>
      have := hc s d hs
      simp [coerceKey, hs, WireKey, this.1, this.2]
  | number d => exact h
  | nil => exact h
  | boolean b => exact h
  | table es => exact h
  | other => exact h

mutual
theorem wire_coerce (cvt : Str2Number) (hc : CvtOk cvt) : ∀ (v : LuaValue), Wire v = true →
    Wire (coerceKeys cvt v) = true
  | .nil, h => h
  | .boolean _, h => h
  | .number _, h => h
  | .string _, h => h
  | .other, h => h
  | .table es, h => by
      simp only [Wire, Bool.and_eq_true] at h
      rw [coerceKeys, Wire, coerceEntries_length]
      simp only [Bool.and_eq_true]
      exact ⟨h.1, wireEntries_coerce cvt hc es h.2⟩
theorem wireEntries_coerce (cvt : Str2Number) (hc : CvtOk cvt) :
    ∀ (es : List (LuaValue × LuaValue)), WireEntries es = true →
    WireEntries (coerceEntries cvt es) = true
  | [], h => h
  | (k, v) :: rest, h => by
      simp only [WireEntries, Bool.and_eq_true] at h
      rw [coerceEntries, WireEntries]
      simp only [Bool.and_eq_true]
      exact ⟨⟨wireKey_coerce cvt hc k h.1.1, wire_coerce cvt hc v h.1.2⟩,
        wireEntries_coerce cvt hc rest h.2⟩
end

theorem At_memOf_append (e : List Nat) (he : ∀ b ∈ e, b < 256) : ∀ (pre t : List Nat),
    At (memOf (pre ++ e ++ t)) pre.length e := by
  induction e with
  | nil => intro pre t; trivial
  | cons b bs ih =>
    intro pre t
    have hb : b < 256 := he b (List.mem_cons_self _ _)
    refine ⟨?_, ?_⟩
    · simp only [Mem.read, memOf, List.append_assoc, List.cons_append]
      rw [List.getD_eq_getElem?_getD, List.getElem?_append_right (Nat.le_refl _)]
      simp only [Nat.sub_self, List.getElem?_cons_zero, Option.getD_some]
      omega
    · have := ih (fun x hx => he x (List.mem_cons_of_mem _ hx)) (pre ++ [b]) t
      simpa using this

theorem map_mod_eq (e : List Nat) (he : ∀ b ∈ e, b < 256) : e.map (fun b => b % 256) = e := by
  induction e with
  | nil => rfl
  | cons b bs ih =>
    have hb : b < 256 := he b (List.mem_cons_self _ _)
    simp only [List.map_cons, ih (fun x hx => he x (List.mem_cons_of_mem _ hx)),
      Nat.mod_eq_of_lt hb]

/-- C16 (trailing bytes are ignored): let `e` be the bytes that
`serialize_internal` produced for a value with number and string keys, and `t`
any byte sequence.  On `e ++ t`, as on `e` alone, `deserialize_internal`
returns 0, leaves the cursor at offset `|e|` and pushes the same value. -/
theorem trailing_bytes_ignored (cvt : Str2Number) (hc : CvtOk cvt) (v : LuaValue) (mem : Mem)
    (buffer end_ : Nat) (hw : Wire v = true)
    (hrc : (serialize_internal cvt v mem buffer end_).rc = 0) (e t : List Nat)
    (he : e = readBytes (serialize_internal cvt v mem buffer end_).mem buffer
      ((serialize_internal cvt v mem buffer end_).buffer - buffer)) :
    deserialize_internal (memOf (e ++ t)) 0 (e ++ t).length =
      .ret 0 e.length [rebuild (coerceKeys cvt v)] ∧
    deserialize_internal (memOf e) 0 e.length = .ret 0 e.length [rebuild (coerceKeys cvt v)] := by
  have hw2 := wire_coerce cvt hc v hw
  have hlt := ser_lt (coerceKeys cvt v) hw2
  have hee : e = ser noCvt (coerceKeys cvt v) := by
    rw [he, serialize_internal_eq cvt v mem buffer end_ hrc]
    simp only [Nat.add_sub_cancel_left]
    have := readBytes_of_At _ _ buffer (At_memcpy_mod (ser cvt v) mem buffer)
    rw [List.length_map] at this
    rw [this, ser_coerce cvt v, map_mod_eq _ hlt]
  have key : ∀ (t2 : List Nat), deserialize_internal (memOf (e ++ t2)) 0 (e ++ t2).length =
      .ret 0 e.length [rebuild (coerceKeys cvt v)] := by
    intro t2
    have hat : At (memOf (e ++ t2)) 0 (ser noCvt (coerceKeys cvt v)) := by
      have := At_memOf_append e (hee ▸ hlt) [] t2
      rw [hee] at this ⊢
      simpa using this
    obtain ⟨f, hf⟩ := decode_ser (coerceKeys cvt v) hw2 (memOf (e ++ t2)) 0 (e ++ t2).length []
      hat (by rw [hee]; simp)
    rw [deserialize_internal_of_fuel hf, hee]
    simp
  refine ⟨key t, ?_⟩
  have := key []
  simpa using this

theorem trailing_bytes_ignored_witness :
    deserialize_internal
      (memOf ([4, 1, 0, 0, 0, 0, 0, 0, 0, 3, 1, 0, 0, 0, 0, 0, 0, 0, 120, 1, 1] ++ [9, 9, 9])) 0
      ([4, 1, 0, 0, 0, 0, 0, 0, 0, 3, 1, 0, 0, 0, 0, 0, 0, 0, 120, 1, 1] ++ [9, 9, 9]).length =
      .ret 0 21 [.table [(.string [120], .boolean true)]] :=
  (trailing_bytes_ignored noCvt (by intro s d h; cases h)
    (.table [(.string [120], .boolean true)]) (fun _ => 0) 0 21 (by decide) (by decide)
    [4, 1, 0, 0, 0, 0, 0, 0, 0, 3, 1, 0, 0, 0, 0, 0, 0, 0, 120, 1, 1] [9, 9, 9] (by decide)).1

/-! ## The emitted bytes and the reference layout -/

theorem specKey_eq (k : LuaValue) : specKey k = key noCvt k := by
  cases k <;> rfl

mutual
theorem specSer_eq : ∀ (v : LuaValue), specSer v = ser noCvt v
  | .nil => rfl
  | .boolean _ => rfl
  | .number _ => rfl
  | .string _ => rfl
  | .other => rfl
  | .table es => by simp only [specSer, ser, specSerEntries_eq es]
theorem specSerEntries_eq : ∀ (es : List (LuaValue × LuaValue)),
    specSerEntries es = serEntries noCvt es
  | [] => rfl
  | (k, v) :: rest => by
      simp only [specSerEntries, serEntries, specKey_eq k, specSer_eq v, specSerEntries_eq rest]
end

theorem specKeySize_eq (k : LuaValue) : (specKey k).length = specKeySize k := by
  cases k with
  | number d => rfl
  | string s =>
    simp only [specKey, specKeySize, List.length_cons, List.length_append, le64_length]
    omega
  | nil => rfl
  | boolean b => rfl
  | table es => rfl
  | other => rfl

mutual
theorem specSer_length : ∀ (v : LuaValue), (specSer v).length = specSize v
  | .nil => rfl
  | .boolean _ => rfl
  | .number _ => rfl
  | .other => rfl
  | .string s => by
      simp only [specSer, specSize, List.length_cons, List.length_append, le64_length]; omega
  | .table es => by
      simp only [specSer, specSize, List.length_cons, List.length_append, le64_length,
        specSerEntries_length es]
      omega
theorem specSerEntries_length : ∀ (es : List (LuaValue × LuaValue)),
    (specSerEntries es).length = specEntriesSize es
  | [] => rfl
  | (k, v) :: rest => by
      simp only [specSerEntries, specEntriesSize, List.length_append, specKeySize_eq k,
        specSer_length v, specSerEntries_length rest]
end

/-- For a value without a string key that Lua converts to a number, the bytes
that `serialize_internal` emits are the reference layout of the format. -/
theorem ser_eq_specSer (cvt : Str2Number) (v : LuaValue) (hp : Plain cvt v = true) :
    ser cvt v = specSer v := by
  rw [ser_plain cvt v hp, specSer_eq]

/-- Whenever `serialize_internal` returns 0 on a value without a string key
that Lua converts to a number, the cursor has advanced by the length of the
reference layout, the memory is the old memory with the reference layout
copied to the old cursor, back-filled count included, and the bytes between the
old and the new cursor read back as the reference layout. -/
theorem serialize_internal_layout_plain (cvt : Str2Number) (v : LuaValue) (mem : Mem)
    (buffer end_ : Nat) (hp : Plain cvt v = true)
    (h : (serialize_internal cvt v mem buffer end_).rc = 0) :
    (serialize_internal cvt v mem buffer end_).buffer = buffer + (specSer v).length ∧
    (serialize_internal cvt v mem buffer end_).mem = memcpy mem buffer (specSer v) ∧
    readBytes (serialize_internal cvt v mem buffer end_).mem buffer (specSer v).length =
      (specSer v).map (fun b => b % 256) := by
  rw [serialize_internal_eq cvt v mem buffer end_ h, ser_eq_specSer cvt v hp]
  refine ⟨rfl, rfl, ?_⟩
  have := readBytes_of_At _ _ buffer (At_memcpy_mod (specSer v) mem buffer)
  simpa using this

/-- An encodable value without a string key that Lua converts to a number is
encoded into a buffer of capacity exactly its encoded size `S` with return
code 0, and the cursor advances by exactly `S` bytes. -/
theorem serialize_internal_exact_capacity_plain (cvt : Str2Number) (v : LuaValue) (mem : Mem)
    (buffer : Nat) (h : Encodable v = true) (hp : Plain cvt v = true) :
    (serialize_internal cvt v mem buffer (buffer + specSize v)).rc = 0 ∧
    (serialize_internal cvt v mem buffer (buffer + specSize v)).buffer =
      buffer + specSize v := by
  have hs : encodedSize cvt v = specSize v := by
    rw [← ser_length cvt v h, ser_eq_specSer cvt v hp, specSer_length]
  have h1 := serialize_internal_rc cvt v mem buffer (buffer + specSize v) h (by omega)
  have h2 := serialize_internal_eq cvt v mem buffer _ h1
  refine ⟨h1, ?_⟩
  rw [h2, ser_length cvt v h, hs]

/-- C2 (bit-exact layout), evaluated on the table `{ ["10"] = true }`: when Lua
converts the string "10" to the number 10, `serialize_internal` returns 0 and
the 20 bytes it has written hold the Number unit `2, 0, 0, 0, 0, 0, 0, 36, 64`
for the key, where the reference layout of the format is 22 bytes long and
holds the Text unit `3, 2, 0, 0, 0, 0, 0, 0, 0, 49, 48`. -/
theorem layout_numeral_key (cvt : Str2Number) (mem : Mem)
    (h : cvt [49, 48] = some 4621819117588971520) :
    (serialize_internal cvt (.table [(.string [49, 48], .boolean true)]) mem 0 1024).rc = 0 ∧
    (serialize_internal cvt (.table [(.string [49, 48], .boolean true)]) mem 0 1024).buffer
      = 20 ∧
    readBytes
      (serialize_internal cvt (.table [(.string [49, 48], .boolean true)]) mem 0 1024).mem 0 20 =
      [4, 1, 0, 0, 0, 0, 0, 0, 0, 2, 0, 0, 0, 0, 0, 0, 36, 64, 1, 1] ∧
    specSer (.table [(.string [49, 48], .boolean true)]) =
      [4, 1, 0, 0, 0, 0, 0, 0, 0, 3, 2, 0, 0, 0, 0, 0, 0, 0, 49, 48, 1, 1] := by
  have hrc : (serialize_internal cvt (.table [(.string [49, 48], .boolean true)]) mem 0 1024).rc
      = 0 := by
    simp [serialize_internal, serialize_entries, lua_isnumber, h]
  have hser : ser cvt (.table [(.string [49, 48], .boolean true)]) =
      [4, 1, 0, 0, 0, 0, 0, 0, 0, 2, 0, 0, 0, 0, 0, 0, 36, 64, 1, 1] := by
    simp [ser, serEntries, key, lua_isnumber, lua_tonumber, h, le64]
  have hat := At_memcpy_mod (ser cvt (.table [(.string [49, 48], .boolean true)])) mem 0
  rw [serialize_internal_eq cvt _ mem 0 1024 hrc, hser]
  rw [hser] at hat
  exact ⟨rfl, rfl, readBytes_of_At _ _ 0 hat, by decide⟩

theorem layout_numeral_key_witness :
    readBytes
      (serialize_internal (fun s => if s = [49, 48] then some 4621819117588971520 else none)
        (.table [(.string [49, 48], .boolean true)]) (fun _ => 0) 0 1024).mem 0 20 =
      [4, 1, 0, 0, 0, 0, 0, 0, 0, 2, 0, 0, 0, 0, 0, 0, 36, 64, 1, 1] :=
  (layout_numeral_key _ (fun _ => 0) (by decide)).2.2.1

/-- C3 (capacity boundary, success side), evaluated on the table
`{ ["10"] = true }`, whose exact encoded size `S` is 22: when Lua converts the
string "10" to the number 10, `serialize_internal` on a buffer with cursor 0
and capacity 22 returns 0 and advances the cursor by 20 bytes, not by 22, and
it also returns 0 on a buffer of capacity 20. -/
theorem exact_capacity_numeral_key (cvt : Str2Number) (mem : Mem)
    (h : cvt [49, 48] = some 4621819117588971520) :
    Encodable (.table [(.string [49, 48], .boolean true)]) = true ∧
    specSize (.table [(.string [49, 48], .boolean true)]) = 22 ∧
    (serialize_internal cvt (.table [(.string [49, 48], .boolean true)]) mem 0 22).rc = 0 ∧
    (serialize_internal cvt (.table [(.string [49, 48], .boolean true)]) mem 0 22).buffer
      = 20 ∧
    (serialize_internal cvt (.table [(.string [49, 48], .boolean true)]) mem 0 20).rc = 0 := by
  have hrc : (serialize_internal cvt (.table [(.string [49, 48], .boolean true)]) mem 0 22).rc
      = 0 := by
    simp [serialize_internal, serialize_entries, lua_isnumber, h]
  have hrc2 : (serialize_internal cvt (.table [(.string [49, 48], .boolean true)]) mem 0 20).rc
      = 0 := by
    simp [serialize_internal, serialize_entries, lua_isnumber, h]
  have hser : ser cvt (.table [(.string [49, 48], .boolean true)]) =
      [4, 1, 0, 0, 0, 0, 0, 0, 0, 2, 0, 0, 0, 0, 0, 0, 36, 64, 1, 1] := by
    simp [ser, serEntries, key, lua_isnumber, lua_tonumber, h, le64]
  refine ⟨by decide, by decide, hrc, ?_, hrc2⟩
  rw [serialize_internal_eq cvt _ mem 0 22 hrc, hser]
  rfl

theorem exact_capacity_numeral_key_witness :
    (serialize_internal (fun s => if s = [49, 48] then some 4621819117588971520 else none)
      (.table [(.string [49, 48], .boolean true)]) (fun _ => 0) 0 22).rc = 0 ∧
    (serialize_internal (fun s => if s = [49, 48] then some 4621819117588971520 else none)
      (.table [(.string [49, 48], .boolean true)]) (fun _ => 0) 0 22).buffer = 20 :=
  ⟨(exact_capacity_numeral_key _ (fun _ => 0) (by decide)).2.2.1,
   (exact_capacity_numeral_key _ (fun _ => 0) (by decide)).2.2.2.1⟩

/-! ## Length and count fields whose pointer sum passes `2 ^ 64` -/

theorem padd_of_lt {p n : Nat} (h : p + n < 18446744073709551616) : padd p n = p + n :=
  Nat.mod_eq_of_lt h

theorem padd_of_ge {p n : Nat} (h1 : 18446744073709551616 ≤ p + n)
    (h2 : p + n < 36893488147419103232) : padd p n = p + n - 18446744073709551616 := by
  unfold padd
  omega

theorem read64_lt (m : Mem) (a : Nat) : read64 m a < 18446744073709551616 := by
  simp only [read64, readBytes, fromLE, Mem.read]
  omega

theorem readBytes_getElem (m : Mem) : ∀ (n a i : Nat), i < n →
    (readBytes m a n)[i]? = some (m.read (a + i)) := by
  intro n
  induction n with
  | zero => intro a i h; omega
  | succ n ih =>
    intro a i h
    cases i with
    | zero => simp [readBytes]
    | succ i =>
      have h2 : a + (i + 1) = a + 1 + i := by omega
      simp only [readBytes, List.getElem?_cons_succ, h2]
      exact ih (a + 1) i (by omega)

theorem deserialize_fuel64_succ (alloc : Nat → Bool) (fuel : Nat) (mem : Mem)
    (buffer end_ : Nat) (st : Stack) :
    deserialize_fuel64 alloc (fuel + 1) mem buffer end_ st =
      if padd buffer 1 > end_ then some (.ret (-1) buffer st)
      else if mem.read buffer = 0 then some (.ret 0 (padd buffer 1) (.nil :: st))
      else if mem.read buffer = 1 then
        if padd (padd buffer 1) 1 > end_ then some (.ret (-1) buffer st)
        else some (.ret 0 (padd (padd buffer 1) 1)
          (.boolean (mem.read (padd buffer 1) != 0) :: st))
      else if mem.read buffer = 2 then
        if padd (padd buffer 1) 8 > end_ then some (.ret (-1) buffer st)
        else some (.ret 0 (padd (padd buffer 1) 8) (.number (read64 mem (padd buffer 1)) :: st))
      else if mem.read buffer = 3 then
        if padd (padd buffer 1) 8 > end_ then some (.ret (-1) buffer st)
        else if padd (padd (padd buffer 1) 8) (read64 mem (padd buffer 1)) > end_ then
          some (.ret (-1) buffer st)
        else
          match lua_pushlstring alloc mem (padd (padd buffer 1) 8)
            (read64 mem (padd buffer 1)) with
          | none => some .raised
          | some s => some (.ret 0 (padd (padd (padd buffer 1) 8) (read64 mem (padd buffer 1)))
              (s :: st))
      else if mem.read buffer = 4 then
        if padd (padd buffer 1) 8 > end_ then some (.ret (-1) buffer st)
        else if padd (padd (padd buffer 1) 8) (read64 mem (padd buffer 1)) > end_ then
          some (.ret (-1) buffer st)
        else table_loop64 alloc fuel mem buffer (read64 mem (padd buffer 1)) 0
          (padd (padd buffer 1) 8) end_ (.table [] :: st)
      else some (.ret (-9) buffer st) := rfl

theorem table_loop64_exit (alloc : Nat → Bool) (fuel : Nat) (mem : Mem)
    (buffer len cnt pos end_ : Nat) (st : Stack) (h : ¬ (cnt < len ∧ pos < end_)) :
    table_loop64 alloc (fuel + 1) mem buffer len cnt pos end_ st = some (.ret 0 pos st) := by
  simp only [table_loop64, h, ↓reduceIte]

/-- C12 (decoder read bounds), evaluated on a buffer that holds the Text tag
and a length field `len` so large that the pointer sum `pos + len` of line 178
passes `2 ^ 64`.  More bytes are declared than remain, yet the sum wraps
around, the bounds check passes and `lua_pushlstring` is called for the `len`
bytes at `pos`.  When the host creates that string the call returns 0, and the
string holds the byte stored at `end`, which is not a byte of the buffer;
when the host does not, the call ends with its memory error.  In neither case
does the call return -1. -/
theorem text_length_wraps (alloc : Nat → Bool) (fuel : Nat) (mem : Mem) (buffer end_ : Nat)
    (h9 : buffer + 9 ≤ end_) (he : end_ < 18446744073709551616)
    (htag : mem.read buffer = 3)
    (hw : 18446744073709551616 ≤ buffer + 9 + read64 mem (buffer + 1)) :
    end_ - (buffer + 9) < read64 mem (buffer + 1) ∧
    deserialize_fuel64 alloc (fuel + 1) mem buffer end_ [] =
      (if alloc (read64 mem (buffer + 1)) then
        some (.ret 0 (buffer + 9 + read64 mem (buffer + 1) - 18446744073709551616)
          [.string (readBytes mem (buffer + 9) (read64 mem (buffer + 1)))])
      else some .raised) ∧
    (readBytes mem (buffer + 9) (read64 mem (buffer + 1)))[end_ - (buffer + 9)]? =
      some (mem.read end_) := by
  have hl := read64_lt mem (buffer + 1)
  have p1 : padd buffer 1 = buffer + 1 := padd_of_lt (by omega)
  have p8 : padd (buffer + 1) 8 = buffer + 9 := padd_of_lt (by omega)
  have pl : padd (buffer + 9) (read64 mem (buffer + 1)) =
      buffer + 9 + read64 mem (buffer + 1) - 18446744073709551616 :=
    padd_of_ge hw (by omega)
  have hlt : end_ - (buffer + 9) < read64 mem (buffer + 1) := by omega
  refine ⟨hlt, ?_, ?_⟩
  · rw [deserialize_fuel64_succ]
    have c1 : ¬ buffer + 1 > end_ := by omega
    have c2 : ¬ buffer + 9 > end_ := by omega
    have c3 : ¬ buffer + 9 + read64 mem (buffer + 1) - 18446744073709551616 > end_ := by omega
    have e0 : (3 : Nat) ≠ 0 := by decide
    have e1 : (3 : Nat) ≠ 1 := by decide
    have e2 : (3 : Nat) ≠ 2 := by decide
    simp only [p1, p8, pl, c1, c2, c3, ↓reduceIte, htag, e0, e1, e2, lua_pushlstring]
    by_cases ha : alloc (read64 mem (buffer + 1)) = true
    · simp only [ha, ↓reduceIte]
    · simp only [ha, ↓reduceIte, Bool.false_eq_true]
  · have := readBytes_getElem mem (read64 mem (buffer + 1)) (buffer + 9) (end_ - (buffer + 9)) hlt
    have e : buffer + 9 + (end_ - (buffer + 9)) = end_ := by omega
    rw [this, e]

theorem text_length_wraps_witness :
    deserialize_fuel64 (fun _ => true) 1
      (memOf [3, 255, 255, 255, 255, 255, 255, 255, 255, 7]) 0 9 [] =
      some (.ret 0 8 [.string (readBytes (memOf [3, 255, 255, 255, 255, 255, 255, 255, 255, 7])
        9 18446744073709551615)]) ∧
    deserialize_fuel64 (fun _ => false) 1
      (memOf [3, 255, 255, 255, 255, 255, 255, 255, 255, 7]) 0 9 [] = some .raised ∧
    (readBytes (memOf [3, 255, 255, 255, 255, 255, 255, 255, 255, 7]) 9
      18446744073709551615)[0]? = some 7 :=
  ⟨(text_length_wraps (fun _ => true) 0 (memOf [3, 255, 255, 255, 255, 255, 255, 255, 255, 7])
      0 9 (by decide) (by decide) (by decide) (by decide)).2.1,
   (text_length_wraps (fun _ => false) 0 (memOf [3, 255, 255, 255, 255, 255, 255, 255, 255, 7])
      0 9 (by decide) (by decide) (by decide) (by decide)).2.1,
   (text_length_wraps (fun _ => true) 0 (memOf [3, 255, 255, 255, 255, 255, 255, 255, 255, 7])
      0 9 (by decide) (by decide) (by decide) (by decide)).2.2⟩

/-- The count check of the table case in the 64-bit embedding, when the pointer
sum `pos + M` stays below `2 ^ 64`: the call returns -1 without pushing a
table when fewer than `M` bytes remain behind the count field, and when
`M = 0` it returns 0 with the empty table and the cursor 9 bytes further. -/
theorem table_count_check64 (alloc : Nat → Bool) (fuel : Nat) (mem : Mem) (buffer end_ : Nat)
    (h9 : buffer + 9 ≤ end_) (he : end_ < 18446744073709551616) (htag : mem.read buffer = 4) :
    (end_ - (buffer + 9) < read64 mem (buffer + 1) →
      buffer + 9 + read64 mem (buffer + 1) < 18446744073709551616 →
      deserialize_fuel64 alloc (fuel + 1) mem buffer end_ [] = some (.ret (-1) buffer [])) ∧
    (read64 mem (buffer + 1) = 0 →
      deserialize_fuel64 alloc (fuel + 2) mem buffer end_ [] =
        some (.ret 0 (buffer + 9) [.table []])) := by
  have p1 : padd buffer 1 = buffer + 1 := padd_of_lt (by omega)
  have p8 : padd (buffer + 1) 8 = buffer + 9 := padd_of_lt (by omega)
  have c1 : ¬ buffer + 1 > end_ := by omega
  have c2 : ¬ buffer + 9 > end_ := by omega
  have e0 : (4 : Nat) ≠ 0 := by decide
  have e1 : (4 : Nat) ≠ 1 := by decide
  have e2 : (4 : Nat) ≠ 2 := by decide
  have e3 : (4 : Nat) ≠ 3 := by decide
  constructor
  · intro h hs
    rw [deserialize_fuel64_succ]
    have pl : padd (buffer + 9) (read64 mem (buffer + 1)) =
        buffer + 9 + read64 mem (buffer + 1) := padd_of_lt hs
    have c3 : buffer + 9 + read64 mem (buffer + 1) > end_ := by omega
    simp only [p1, p8, pl, c1, c2, c3, ↓reduceIte, htag, e0, e1, e2, e3]
  · intro h
    rw [deserialize_fuel64_succ]
    have pl : padd (buffer + 9) 0 = buffer + 9 := padd_of_lt (by omega)
    simp only [p1, p8, h, pl, c1, c2, ↓reduceIte, htag, e0, e1, e2, e3]
    exact table_loop64_exit alloc fuel mem buffer 0 0 (buffer + 9) end_ _ (by omega)

/-- C18 (table count is checked as a byte count), evaluated on a buffer that
holds the Table tag and a count field `M` so large that the pointer sum
`pos + M` of line 193 passes `2 ^ 64`.  Fewer than `M` bytes remain behind the
count field, yet the sum wraps around and the check passes: the table is
created and the loop is entered.  When the buffer ends behind the count field,
the call returns 0 with the empty table and the cursor 9 bytes further, not
-1. -/
theorem table_count_wraps (alloc : Nat → Bool) (fuel : Nat) (mem : Mem) (buffer end_ : Nat)
    (h9 : buffer + 9 ≤ end_) (he : end_ < 18446744073709551616)
    (htag : mem.read buffer = 4)
    (hw : 18446744073709551616 ≤ buffer + 9 + read64 mem (buffer + 1)) :
    end_ - (buffer + 9) < read64 mem (buffer + 1) ∧
    deserialize_fuel64 alloc (fuel + 1) mem buffer end_ [] =
      table_loop64 alloc fuel mem buffer (read64 mem (buffer + 1)) 0 (buffer + 9) end_
        [.table []] ∧
    (end_ = buffer + 9 →
      deserialize_fuel64 alloc (fuel + 2) mem buffer end_ [] =
        some (.ret 0 (buffer + 9) [.table []])) := by
  have hl := read64_lt mem (buffer + 1)
  have p1 : padd buffer 1 = buffer + 1 := padd_of_lt (by omega)
  have p8 : padd (buffer + 1) 8 = buffer + 9 := padd_of_lt (by omega)
  have pl : padd (buffer + 9) (read64 mem (buffer + 1)) =
      buffer + 9 + read64 mem (buffer + 1) - 18446744073709551616 :=
    padd_of_ge hw (by omega)
  have c1 : ¬ buffer + 1 > end_ := by omega
  have c2 : ¬ buffer + 9 > end_ := by omega
  have c3 : ¬ buffer + 9 + read64 mem (buffer + 1) - 18446744073709551616 > end_ := by omega
  have e0 : (4 : Nat) ≠ 0 := by decide
  have e1 : (4 : Nat) ≠ 1 := by decide
  have e2 : (4 : Nat) ≠ 2 := by decide
  have e3 : (4 : Nat) ≠ 3 := by decide
  have hstep : ∀ f, deserialize_fuel64 alloc (f + 1) mem buffer end_ [] =
      table_loop64 alloc f mem buffer (read64 mem (buffer + 1)) 0 (buffer + 9) end_
        [.table []] := by
    intro f
    rw [deserialize_fuel64_succ]
    simp only [p1, p8, pl, c1, c2, c3, ↓reduceIte, htag, e0, e1, e2, e3]
  refine ⟨by omega, hstep fuel, ?_⟩
  intro hend
  rw [hstep (fuel + 1)]
  exact table_loop64_exit alloc fuel mem buffer _ 0 (buffer + 9) end_ _ (by omega)

theorem table_count_wraps_witness :
    deserialize_fuel64 (fun _ => true) 2
      (memOf [4, 255, 255, 255, 255, 255, 255, 255, 255]) 0 9 [] =
      some (.ret 0 (0 + 9) [.table []]) :=
  (table_count_wraps (fun _ => true) 0 (memOf [4, 255, 255, 255, 255, 255, 255, 255, 255]) 0 9
    (by decide) (by decide) (by decide) (by decide)).2.2 rfl

end LuaSerde
